import Mathlib

/-!
Shallow embedding of the dependency-gated task scheduler of the
`propwriter` repository, and proofs settling the specification claims.

Sources embedded:
- `src/services/dependency_graph.py`   (class `DependencyGraph`)
- `src/services/context_manager.py`    (class `ContextManager`)
- `src/services/trigger_controller.py` (classes `AgentStatus`, `TriggerController`)
- `src/engine/proposal_engine.py`      (recovery-point methods of `ProposalEngine`)

Modelling conventions:
- Python `str` identifiers are Lean `String`.
- Python `dict` values are association lists; `dict.update` / key
  assignment keep Python's insertion-order semantics (existing keys are
  overwritten in place, new keys are appended at the end).
- Arbitrary JSON-like context values are the inductive type `Value`
  (null / string / nested dict); the scheduler never inspects values,
  it only moves them, so this covers every shape the claims touch.
- `datetime.now()` timestamps are omitted: no claim mentions them and
  they carry no information the scheduler ever reads back.
- The cooperative `asyncio` execution of `TriggerController` is a
  small-step transition system; atomic segments of the Python code
  (code between two `await` suspension points) become single steps,
  and the step relation allows every interleaving of task resumptions,
  which over-approximates the real event loop's FIFO order.
-/

/-- A JSON-like context value: `None`, a string, or a nested dict
(association list in insertion order).  The scheduler code only ever
stores, copies and looks up such values. -/
inductive Value where
  | vnull : Value
  | vstr (s : String) : Value
  | vdict (entries : List (String × Value)) : Value

instance : Inhabited Value := ⟨Value.vnull⟩

/-- A Python dict with string keys, in insertion order. -/
abbrev Ctx := List (String × Value)

/-- Assignment `d[k] = v` on a Python dict with string keys: overwrite
in place when the key exists, otherwise append at the end. -/
def assocSet {α : Type} (d : List (String × α)) (k : String) (v : α) : List (String × α) :=
  if (d.lookup k).isSome then
    d.map (fun p => if p.1 = k then (k, v) else p)
  else d ++ [(k, v)]

/-- `d[k] = v` on a context dict. -/
def dictSet (d : Ctx) (k : String) (v : Value) : Ctx :=
  assocSet d k v

/-- `d.update(new)`: left-to-right assignment of every pair of `new`. -/
def dictUpdate (d new : Ctx) : Ctx :=
  new.foldl (fun acc p => dictSet acc p.1 p.2) d

/-- `d.get(k, dflt)`. -/
def dictGet (d : Ctx) (k : String) (dflt : Value) : Value :=
  (d.lookup k).getD dflt

/-! ## DependencyGraph (`src/services/dependency_graph.py`) -/

/-- `DependencyGraph.dependencies`: dict mapping an agent to the list
of agents it depends on, as an insertion-ordered association list. -/
structure DependencyGraph where
  dependencies : List (String × List String)

/-- `self.dependencies.get(agent, [])`. -/
def depsOf (g : DependencyGraph) (agent : String) : List String :=
  (g.dependencies.lookup agent).getD []

/-- The keys of `self.dependencies`, in insertion order. -/
def graphKeys (g : DependencyGraph) : List String :=
  g.dependencies.map Prod.fst

/-- `DependencyGraph.add_dependency`. -/
def addDependency (g : DependencyGraph) (agent depends_on : String) : DependencyGraph :=
  if (g.dependencies.lookup agent).isSome then
    ⟨g.dependencies.map (fun p => if p.1 = agent then (p.1, p.2 ++ [depends_on]) else p)⟩
  else ⟨g.dependencies ++ [(agent, [depends_on])]⟩

/-- `DependencyGraph.get_dependents`: every registered agent whose
dependency list contains `agent`, in insertion order. -/
def getDependents (g : DependencyGraph) (agent : String) : List String :=
  (g.dependencies.filter (fun p => agent ∈ p.2)).map Prod.fst

/-! ## Agent status (`AgentStatus` in `src/services/trigger_controller.py`) -/

/-- The three values the code ever assigns to `AgentStatus.state`. -/
inductive AState where
  | pending : AState
  | completed : AState
  | failed : AState
deriving DecidableEq

/-- `AgentStatus`, minus the timestamp (never read by the scheduler). -/
structure AgentStatus where
  state : AState
  version : Nat
  output : Option Value
  error : Option String

/-- The record `register_agent` creates:
`AgentStatus(state="pending", timestamp=…, version=1)`. -/
def initialAgentStatus : AgentStatus :=
  { state := .pending, version := 1, output := none, error := none }

/-- The `agent_status` dict, as a finite partial map. -/
abbrev StatusMap := String → Option AgentStatus

/-- `DependencyGraph.check_dependencies_met`:
`all(agent_status.get(dep) and agent_status[dep].state == "completed" for dep in deps)`. -/
def checkDependenciesMet (g : DependencyGraph) (agent_status : StatusMap)
    (agent : String) : Bool :=
  (depsOf g agent).all fun dep =>
    match agent_status dep with
    | some st => st.state == .completed
    | none => false

/-! ## Cycle detection (`DependencyGraph.has_circular_dependency`)

The Python code runs a recursive depth-first search with a shared
`visited` dict whose values are `-1` (in progress) and `1` (done);
`Color.grey` stands for `-1` and `Color.black` for `1`.  The Lean
embedding threads the `visited` dict explicitly and uses fuel to bound
the recursion depth; `none` means the fuel ran out, and we prove below
that with fuel `nodeBound g` it never does. -/

/-- Colors of the `visited` dict: `grey` = `-1` (visiting),
`black` = `1` (processed). -/
inductive Color where
  | grey : Color
  | black : Color
deriving DecidableEq

/-- The `visited` dict of the DFS. -/
abbrev Vis := String → Option Color

/-- `visited[a] = c`. -/
def setColor (vis : Vis) (a : String) (c : Color) : Vis :=
  fun x => if x = a then some c else vis x

/-- The `for dep in self.dependencies.get(agent, [])` loop of `visit`:
runs `visit1` on each dep in order, threading `visited`, returning
`true` as soon as one call does (and `none` if a call runs out of fuel). -/
def goDeps (visit1 : Vis → String → Option (Bool × Vis)) :
    Vis → List String → Option (Bool × Vis)
  | vis, [] => some (false, vis)
  | vis, d :: ds =>
    match visit1 vis d with
    | none => none
    | some (true, vis') => some (true, vis')
    | some (false, vis') => goDeps visit1 vis' ds

/-- The inner `visit` closure of `has_circular_dependency`, with fuel
bounding the recursion depth. -/
def visitF (g : DependencyGraph) : Nat → Vis → String → Option (Bool × Vis)
  | 0, _, _ => none
  | n + 1, vis, a =>
    match vis a with
    | some .grey => some (true, vis)
    | some .black => some (false, vis)
    | none =>
      match goDeps (fun v d => visitF g n v d) (setColor vis a .grey) (depsOf g a) with
      | none => none
      | some (true, vis') => some (true, vis')
      | some (false, vis') => some (false, setColor vis' a .black)

/-- `any(visit(agent) for agent in self.dependencies)`: iterate the
keys in order sharing `visited`, short-circuiting on `true`. -/
def anyKeys (visit1 : Vis → String → Option (Bool × Vis)) :
    Vis → List String → Option Bool
  | _, [] => some false
  | vis, k :: ks =>
    match visit1 vis k with
    | none => none
    | some (true, _) => some true
    | some (false, vis') => anyKeys visit1 vis' ks

/-- Every identifier occurring in the graph (keys and dependencies). -/
def allNodes (g : DependencyGraph) : List String :=
  graphKeys g ++ g.dependencies.foldr (fun p acc => p.2 ++ acc) []

/-- Fuel that provably suffices for the DFS (one more than the number
of node occurrences, an upper bound on the recursion depth). -/
def nodeBound (g : DependencyGraph) : Nat :=
  (allNodes g).length + 1

/-- `DependencyGraph.has_circular_dependency`.  `some b` is the boolean
the Python function returns; `none` would mean the fuel ran out, which
`hasCircularDependency_total` rules out. -/
def hasCircularDependency (g : DependencyGraph) : Option Bool :=
  anyKeys (fun v a => visitF g (nodeBound g) v a) (fun _ => none) (graphKeys g)

/-- The edge relation of the dependency graph: `edgeRel g a b` holds
when `b` appears in `a`'s dependency list. -/
def edgeRel (g : DependencyGraph) (a b : String) : Prop :=
  b ∈ depsOf g a

/-- A directed cycle: some node reaches itself by at least one edge. -/
def HasCycle (g : DependencyGraph) : Prop :=
  ∃ a, Relation.TransGen (edgeRel g) a a

/-! ## ContextManager (`src/services/context_manager.py`) -/

/-- One record of `context_history` (timestamp omitted). -/
structure HistEntry where
  context_name : String
  update : Ctx
  version : Nat

/-- The mutable state of `ContextManager`:
`master_context`, `step_contexts`, `context_versions` (a
`defaultdict(int)`, so reads of absent keys yield `0`), and
`context_history`. -/
structure CMState where
  master_context : Ctx
  step_contexts : List (String × Ctx)
  context_versions : List (String × Nat)
  context_history : List HistEntry

/-- `ContextManager.__init__`. -/
def initCM : CMState :=
  { master_context := [], step_contexts := [], context_versions := [], context_history := [] }

/-- Read of `context_versions[name]` / `context_versions.get(name, 0)`:
a `defaultdict(int)` yields `0` for absent keys. -/
def versionOf (cm : CMState) (name : String) : Nat :=
  (cm.context_versions.lookup name).getD 0

/-- `context_versions[name] = v`. -/
def versionSet (vs : List (String × Nat)) (name : String) (v : Nat) : List (String × Nat) :=
  assocSet vs name v

/-- `ContextManager._log_context_update`: appends
`(context_name, update, context_versions[context_name])` to the history. -/
def logContextUpdate (cm : CMState) (context_name : String) (update : Ctx) : CMState :=
  { cm with context_history :=
      cm.context_history ++ [⟨context_name, update, versionOf cm context_name⟩] }

/-- `ContextManager.initialize_master_context`. -/
def initializeMasterContext (cm : CMState) (initial_data : Ctx) : CMState :=
  logContextUpdate { cm with master_context := initial_data } "master_context" initial_data

/-- `ContextManager.get_master_context`. -/
def getMasterContext (cm : CMState) : Ctx :=
  cm.master_context

/-- `ContextManager.update_master_context`: merges `new_data` into the
master context and logs the change.  Note: it does NOT touch
`context_versions`. -/
def updateMasterContext (cm : CMState) (new_data : Ctx) : CMState :=
  logContextUpdate { cm with master_context := dictUpdate cm.master_context new_data }
    "master_context" new_data

/-- `step_contexts.get(agent_id, {})`, as used inside
`initialize_step_context` to read a prerequisite's stored context. -/
def stepCtxOf (cm : CMState) (agent_id : String) : Ctx :=
  (cm.step_contexts.lookup agent_id).getD []

/-- The dict literal `initialize_step_context` builds for `agent_id`
when no context exists yet: a hardcoded per-identifier selection of
master-context fields plus, for the known dependent agents, the stored
`output` of one specific prerequisite. -/
def buildStepContext (cm : CMState) (agent_id : String) : Ctx :=
  if agent_id = "scope_agent" then
    [("client_info", dictGet cm.master_context "client_info" (.vdict [])),
     ("engagement_details", dictGet cm.master_context "engagement_details" (.vdict [])),
     ("specific_requirements", dictGet cm.master_context "specific_requirements" (.vdict []))]
  else if agent_id = "value_proposition_agent" then
    [("client_info", dictGet cm.master_context "client_info" (.vdict [])),
     ("engagement_details", dictGet cm.master_context "engagement_details" (.vdict [])),
     ("proposal_needs", dictGet cm.master_context "proposal_needs" (.vdict []))]
  else if agent_id = "quality_judge_agent" then
    [("section_content", .vnull), ("section_id", .vnull)]
  else if agent_id = "approach_agent" ∨ agent_id = "pricing_agent" ∨ agent_id = "team_agent" then
    [("client_info", dictGet cm.master_context "client_info" (.vdict [])),
     ("engagement_details", dictGet cm.master_context "engagement_details" (.vdict [])),
     ("scope_output", dictGet (stepCtxOf cm "scope_agent") "output" (.vstr ""))]
  else if agent_id = "timeline_agent" then
    [("client_info", dictGet cm.master_context "client_info" (.vdict [])),
     ("engagement_details", dictGet cm.master_context "engagement_details" (.vdict [])),
     ("approach_output", dictGet (stepCtxOf cm "approach_agent") "output" (.vstr ""))]
  else if agent_id = "executive_summary_agent" then
    [("client_info", dictGet cm.master_context "client_info" (.vdict [])),
     ("engagement_details", dictGet cm.master_context "engagement_details" (.vdict [])),
     ("value_proposition_output", dictGet (stepCtxOf cm "value_proposition_agent") "output" (.vstr ""))]
  else []

/-- `step_contexts[agent_id] = c`. -/
def stepCtxSet (scs : List (String × Ctx)) (agent_id : String) (c : Ctx) : List (String × Ctx) :=
  assocSet scs agent_id c

/-- `ContextManager.initialize_step_context`: builds the per-agent
context ONLY when `agent_id not in self.step_contexts`; an existing
context is left untouched. -/
def initializeStepContext (cm : CMState) (agent_id : String) : CMState :=
  if (cm.step_contexts.lookup agent_id).isSome then cm
  else { cm with step_contexts := stepCtxSet cm.step_contexts agent_id (buildStepContext cm agent_id) }

/-- `ContextManager.get_step_context`: `step_contexts.get(agent_id, {})`. -/
def getStepContext (cm : CMState) (agent_id : String) : Ctx :=
  (cm.step_contexts.lookup agent_id).getD []

/-- `ContextManager.update_step_context`: create the agent's context
dict if absent, merge `new_data` into it, increment
`context_versions[agent_id]` by one, then log with the new version. -/
def updateStepContext (cm : CMState) (agent_id : String) (new_data : Ctx) : CMState :=
  let base := (cm.step_contexts.lookup agent_id).getD []
  let cm' : CMState :=
    { cm with
      step_contexts := stepCtxSet cm.step_contexts agent_id (dictUpdate base new_data),
      context_versions := versionSet cm.context_versions agent_id (versionOf cm agent_id + 1) }
  logContextUpdate cm' agent_id new_data

/-- `ContextManager.get_context_version`: `context_versions.get(agent_id, 0)`. -/
def getContextVersion (cm : CMState) (agent_id : String) : Nat :=
  (cm.context_versions.lookup agent_id).getD 0

/-- The input snapshot `execute_agent` hands to the callback:
`initialize_step_context(agent_id)` followed by
`get_step_context(agent_id)`. -/
def launchInput (cm : CMState) (agent_id : String) : Ctx :=
  getStepContext (initializeStepContext cm agent_id) agent_id

/-! ## Scheduler (`TriggerController` in `src/services/trigger_controller.py`)

The cooperative `asyncio` execution is modelled as a small-step
transition system.  Each `asyncio` task created for `execute_agent`
is either still queued (created but not yet started) or running
(started, suspended at `await callback`).  The code between two
suspension points runs atomically on the single-threaded event loop,
so it forms one transition; the relation permits any interleaving of
task resumptions, which over-approximates the event loop's order. -/

/-- One `asyncio` task for `execute_agent(agent)`.  `initial` marks
tasks created by `run_all` itself (the ones `asyncio.gather` awaits),
as opposed to tasks created by `_trigger_dependents`. -/
inductive ATask where
  | queued (agent : String) (initial : Bool) : ATask
  | running (agent : String) (initial : Bool) : ATask
deriving DecidableEq

/-- Is this a queued task for `a`? -/
def ATask.isQueuedFor (a : String) : ATask → Bool
  | .queued b _ => b = a
  | _ => false

/-- Is this a running task for `a`? -/
def ATask.isRunningFor (a : String) : ATask → Bool
  | .running b _ => b = a
  | _ => false

/-- Was this task created by `run_all` itself? -/
def ATask.isInitial : ATask → Bool
  | .queued _ i => i
  | .running _ i => i

/-- Number of queued tasks for `a`. -/
def cntQ (ts : List ATask) (a : String) : Nat :=
  (ts.filter (ATask.isQueuedFor a)).length

/-- Number of running tasks for `a`. -/
def cntR (ts : List ATask) (a : String) : Nat :=
  (ts.filter (ATask.isRunningFor a)).length

/-- The registration data of the controller: the dependency graph and
the keys of `agent_callbacks` in registration order.  Callback bodies
are opaque: the step relation lets a callback either return an
arbitrary output value or raise an arbitrary error. -/
structure SchedConfig where
  graph : DependencyGraph
  registered : List String

/-- Well-formedness guaranteed by `register_agent`: `agent_callbacks`
and `dependency_graph.dependencies` are Python dicts (unique keys) and
every graph key was registered. -/
structure WFConfig (cfg : SchedConfig) : Prop where
  nodupReg : cfg.registered.Nodup
  nodupGraph : (cfg.graph.dependencies.map Prod.fst).Nodup
  keysReg : ∀ a ∈ cfg.graph.dependencies.map Prod.fst, a ∈ cfg.registered

/-- The mutable state of a run: `agent_status`, the context manager,
the event loop's task bag, plus two instrumentation counters recording
how many times each agent was ever enqueued (`create_task`) and how
many times its callback was actually invoked (`launched`). -/
structure SState where
  status : StatusMap
  cm : CMState
  tasks : List ATask
  enq : String → Nat
  launched : String → Nat

/-- `agent_status[a] = st`. -/
def statusSet (st : StatusMap) (a : String) (v : AgentStatus) : StatusMap :=
  fun x => if x = a then some v else st x

/-- Bump a counter at `a`. -/
def bumpAt (f : String → Nat) (a : String) : String → Nat :=
  fun x => if x = a then f x + 1 else f x

/-- Add `l.count x` to a counter (bulk enqueue). -/
def bumpList (f : String → Nat) (l : List String) : String → Nat :=
  fun x => f x + l.count x

/-- `execute_agent` body up to its early return: the dependency check
failed, so the coroutine just ends (its task leaves the loop). -/
def applySkip (s : SState) (l₁ l₂ : List ATask) : SState :=
  { s with tasks := l₁ ++ l₂ }

/-- `execute_agent` body up to `await callback`: the dependency check
passed, `initialize_step_context` ran, the input snapshot was read and
the callback was invoked; the task is now suspended at the `await`. -/
def applyStart (s : SState) (l₁ l₂ : List ATask) (a : String) (ini : Bool) : SState :=
  { s with
    cm := initializeStepContext s.cm a,
    tasks := l₁ ++ ATask.running a ini :: l₂,
    launched := bumpAt s.launched a }

/-- The status record written on success:
`state = "completed"`, `output` attached, other fields kept. -/
def completeStatus (st : AgentStatus) (out : Value) : AgentStatus :=
  { st with state := .completed, output := some out }

/-- The status record written on failure:
`state = "failed"`, `error` attached, other fields kept. -/
def failStatus (st : AgentStatus) (e : String) : AgentStatus :=
  { st with state := .failed, error := some e }

/-- The dependents `_trigger_dependents(a)` creates tasks for, in
order: those whose dependencies are met under the given statuses. -/
def triggeredDependents (g : DependencyGraph) (st : StatusMap) (a : String) : List String :=
  (getDependents g a).filter (fun d => checkDependenciesMet g st d)

/-- The atomic block after `await callback` returns successfully:
record the output in the step context, flip the status to
`completed`, and create one task per newly-eligible dependent
(checked against the just-updated statuses).  If `a` has no status
record the Python code would raise a `KeyError`; the invariants below
show a running task's agent is always registered. -/
def applyFinishOk (cfg : SchedConfig) (s : SState) (l₁ l₂ : List ATask)
    (a : String) (out : Value) : SState :=
  match s.status a with
  | none => { s with tasks := l₁ ++ l₂ }
  | some st =>
    let status' := statusSet s.status a (completeStatus st out)
    let newNames := triggeredDependents cfg.graph status' a
    { status := status',
      cm := updateStepContext s.cm a [("output", out)],
      tasks := l₁ ++ l₂ ++ newNames.map (fun d => ATask.queued d false),
      enq := bumpList s.enq newNames,
      launched := s.launched }

/-- The `except` branch of `execute_agent`: flip the status to
`failed` with the error message; no dependents are triggered, nothing
else changes, and the exception is swallowed. -/
def applyFinishFail (s : SState) (l₁ l₂ : List ATask) (a : String) (e : String) : SState :=
  match s.status a with
  | none => { s with tasks := l₁ ++ l₂ }
  | some st =>
    { s with status := statusSet s.status a (failStatus st e), tasks := l₁ ++ l₂ }

/-- One scheduler step: some task of the event loop makes progress.
The task is picked anywhere in the bag (`l₁ ++ _ :: l₂`), which covers
every interleaving the event loop could produce. -/
inductive Step (cfg : SchedConfig) : SState → SState → Prop where
  | skip (s : SState) (l₁ l₂ : List ATask) (a : String) (ini : Bool) :
      s.tasks = l₁ ++ ATask.queued a ini :: l₂ →
      checkDependenciesMet cfg.graph s.status a = false →
      Step cfg s (applySkip s l₁ l₂)
  | start (s : SState) (l₁ l₂ : List ATask) (a : String) (ini : Bool) :
      s.tasks = l₁ ++ ATask.queued a ini :: l₂ →
      checkDependenciesMet cfg.graph s.status a = true →
      Step cfg s (applyStart s l₁ l₂ a ini)
  | finishOk (s : SState) (l₁ l₂ : List ATask) (a : String) (ini : Bool) (out : Value) :
      s.tasks = l₁ ++ ATask.running a ini :: l₂ →
      Step cfg s (applyFinishOk cfg s l₁ l₂ a out)
  | finishFail (s : SState) (l₁ l₂ : List ATask) (a : String) (ini : Bool) (e : String) :
      s.tasks = l₁ ++ ATask.running a ini :: l₂ →
      Step cfg s (applyFinishFail s l₁ l₂ a e)

/-- The controller state right after registration: every registered
agent has the fresh `pending` status, no tasks, zero counters. -/
def regState (cfg : SchedConfig) (cm : CMState) : SState :=
  { status := fun a => if a ∈ cfg.registered then some initialAgentStatus else none,
    cm := cm,
    tasks := [],
    enq := fun _ => 0,
    launched := fun _ => 0 }

/-- `run_all`: abort (flag `true`) if `has_circular_dependency()`,
else create one initial task per currently-eligible registered agent,
in registration order. -/
def runAllStart (cfg : SchedConfig) (s : SState) : Bool × SState :=
  if hasCircularDependency cfg.graph = some true then (true, s)
  else
    let seeds := cfg.registered.filter (fun a => checkDependenciesMet cfg.graph s.status a)
    (false,
      { s with
        tasks := s.tasks ++ seeds.map (fun a => ATask.queued a true),
        enq := bumpList s.enq seeds })

/-- The state in which the cascade of `run_all` begins. -/
def startState (cfg : SchedConfig) (cm : CMState) : SState :=
  (runAllStart cfg (regState cfg cm)).2

/-- States reachable during a run of `run_all`. -/
def Reachable (cfg : SchedConfig) (cm : CMState) (s : SState) : Prop :=
  Relation.ReflTransGen (Step cfg) (startState cfg cm) s

/-! ## Recovery (`src/engine/proposal_engine.py`) -/

/-- `ProposalEngine._create_recovery_point`: a copy of the master
context and of every step context. -/
structure RecoveryPoint where
  master_context : Ctx
  step_contexts : List (String × Ctx)

/-- `_create_recovery_point()`. -/
def createRecoveryPoint (cm : CMState) : RecoveryPoint :=
  { master_context := cm.master_context, step_contexts := cm.step_contexts }

/-- `ProposalEngine._recover_from_error`: restore the two context
dicts from the recovery point and reset every registered agent's
status to `pending` with `output = None` and `error = None`
(timestamp and version fields are left as they are, and
`context_versions` / `context_history` are not rolled back). -/
def recoverFromError (rp : RecoveryPoint) (s : SState) : SState :=
  { s with
    cm := { s.cm with
            master_context := rp.master_context,
            step_contexts := rp.step_contexts },
    status := fun a =>
      match s.status a with
      | some st => some { st with state := .pending, output := none, error := none }
      | none => none }

/-! ## Association-list lemmas -/

theorem lookup_cons_ite {α : Type} (q : String × α) (d : List (String × α)) (k : String) :
    (q :: d).lookup k = if k = q.1 then some q.2 else d.lookup k := by
  rcases q with ⟨a, b⟩
  rw [List.lookup_cons]
  by_cases h : k = a
  · simp [h]
  · simp [beq_eq_false_iff_ne.mpr h, h]

theorem lookup_map_ne {α : Type} (d : List (String × α)) (k k' : String) (v : α)
    (h : k' ≠ k) :
    (d.map (fun p => if p.1 = k then (k, v) else p)).lookup k' = d.lookup k' := by
  induction d with
  | nil => simp
  | cons p d ih =>
    by_cases hp : p.1 = k
    · rw [List.map_cons, if_pos hp, lookup_cons_ite, lookup_cons_ite]
      rw [if_neg (by exact h), if_neg (by rw [hp]; exact h)]
      exact ih
    · rw [List.map_cons, if_neg hp, lookup_cons_ite, lookup_cons_ite]
      by_cases hk : k' = p.1
      · rw [if_pos hk, if_pos hk]
      · rw [if_neg hk, if_neg hk]
        exact ih

theorem lookup_assocSet_present {α : Type} (d : List (String × α)) (k k' : String) (v : α)
    (h : (d.lookup k).isSome) :
    (d.map (fun p => if p.1 = k then (k, v) else p)).lookup k' =
      if k' = k then some v else d.lookup k' := by
  induction d with
  | nil => simp at h
  | cons p d ih =>
    by_cases hp : p.1 = k
    · rw [List.map_cons, if_pos hp, lookup_cons_ite]
      by_cases hk : k' = k
      · simp [hk]
      · rw [if_neg hk, if_neg hk, lookup_cons_ite, if_neg (hp ▸ hk)]
        exact lookup_map_ne d k k' v hk
    · rw [lookup_cons_ite, if_neg (fun e => hp e.symm)] at h
      rw [List.map_cons, if_neg hp, lookup_cons_ite, lookup_cons_ite]
      by_cases hk : k' = p.1
      · rw [if_pos hk, if_pos hk, if_neg (fun e : k' = k => hp (hk ▸ e))]
      · rw [if_neg hk, if_neg hk]
        exact ih h

theorem lookup_append_single {α : Type} (d : List (String × α)) (k k' : String) (v : α)
    (h : d.lookup k = none) :
    (d ++ [(k, v)]).lookup k' = if k' = k then some v else d.lookup k' := by
  induction d with
  | nil => rw [List.nil_append, lookup_cons_ite]
  | cons p d ih =>
    rw [lookup_cons_ite] at h
    by_cases hkp : k = p.1
    · rw [if_pos hkp] at h; exact absurd h (by simp)
    · rw [if_neg hkp] at h
      rw [List.cons_append, lookup_cons_ite, lookup_cons_ite]
      by_cases hk : k' = p.1
      · rw [if_pos hk, if_pos hk, if_neg (fun e : k' = k => hkp (e ▸ hk))]
      · rw [if_neg hk, if_neg hk]
        exact ih h

/-- The single lookup law for Python-dict assignment. -/
theorem lookup_assocSet {α : Type} (d : List (String × α)) (k k' : String) (v : α) :
    (assocSet d k v).lookup k' = if k' = k then some v else d.lookup k' := by
  unfold assocSet
  by_cases h : (d.lookup k).isSome
  · rw [if_pos h]
    exact lookup_assocSet_present d k k' v h
  · rw [if_neg h]
    refine lookup_append_single d k k' v ?_
    cases e : d.lookup k with
    | none => rfl
    | some w => rw [e] at h; simp at h

/-! ## Claim C10: read-only queries are total -/

/-- C10: every read-only query is total at the public interface.
`get_step_context` returns the empty dict and `get_context_version`
returns `0` for an agent with no recorded entry, `get_dependents`
returns the empty list for a unit nothing depends on, and
`check_dependencies_met` is `true` for a unit with no registered
dependencies; all four are total functions of their inputs, so none
can raise for an unknown identifier. -/
theorem claim_C10_queries_total (cm : CMState) (g : DependencyGraph)
    (st : StatusMap) (a : String) :
    (cm.step_contexts.lookup a = none → getStepContext cm a = []) ∧
    (cm.context_versions.lookup a = none → getContextVersion cm a = 0) ∧
    ((∀ p ∈ g.dependencies, a ∉ p.2) → getDependents g a = []) ∧
    (depsOf g a = [] → checkDependenciesMet g st a = true) := by
  refine ⟨fun h => ?_, fun h => ?_, fun h => ?_, fun h => ?_⟩
  · rw [getStepContext, h]; rfl
  · rw [getContextVersion, h]; rfl
  · rw [getDependents]
    have : g.dependencies.filter (fun p => decide (a ∈ p.2)) = [] := by
      rw [List.filter_eq_nil_iff]
      intro p hp
      simpa using h p hp
    rw [this]; rfl
  · rw [checkDependenciesMet, h]; rfl

/-- Witness for C10 at a concrete empty store and graph. -/
theorem claim_C10_queries_total_witness :
    getStepContext initCM "ghost_agent" = [] ∧
    getContextVersion initCM "ghost_agent" = 0 ∧
    getDependents ⟨[("b", ["a"])]⟩ "ghost_agent" = [] ∧
    checkDependenciesMet ⟨[("b", ["a"])]⟩ (fun _ => none) "ghost_agent" = true := by
  obtain ⟨h1, h2, h3, h4⟩ :=
    claim_C10_queries_total initCM ⟨[("b", ["a"])]⟩ (fun _ => none) "ghost_agent"
  exact ⟨h1 rfl, h2 rfl, h3 (by decide), h4 rfl⟩

/-! ## Claim C4: version counters -/

/-- C4 counterexample: `update_master_context` does not increment any
version counter.  On a fresh store a single `update_master_context`
call leaves the `master_context` version at `0`, not at `0 + 1` as the
claim requires for every update operation. -/
theorem claim_C4_counterexample :
    ¬ (getContextVersion (updateMasterContext initCM [("x", Value.vstr "y")]) "master_context"
        = getContextVersion initCM "master_context" + 1) := by
  decide

/-- C4 amended: every `update_step_context` call increments exactly
that agent's version counter by one (and leaves every other counter
unchanged), but `update_master_context` leaves every version counter
unchanged — in particular the master context's version never moves
from `0`. -/
theorem claim_C4_amended (cm : CMState) (a : String) (new : Ctx) :
    (getContextVersion (updateStepContext cm a new) a = getContextVersion cm a + 1) ∧
    (∀ b, b ≠ a → getContextVersion (updateStepContext cm a new) b = getContextVersion cm b) ∧
    (∀ b, getContextVersion (updateMasterContext cm new) b = getContextVersion cm b) := by
  refine ⟨?_, fun b hb => ?_, fun b => ?_⟩
  · show ((versionSet cm.context_versions a (versionOf cm a + 1)).lookup a).getD 0 = _
    rw [versionSet, lookup_assocSet, if_pos rfl]
    rfl
  · show ((versionSet cm.context_versions a (versionOf cm a + 1)).lookup b).getD 0 = _
    rw [versionSet, lookup_assocSet, if_neg hb]
    rfl
  · rfl

/-- Witness for C4 amended at a concrete store. -/
theorem claim_C4_amended_witness :
    getContextVersion (updateStepContext initCM "scope_agent" [("output", Value.vstr "S")])
        "scope_agent" = getContextVersion initCM "scope_agent" + 1 ∧
    getContextVersion (updateStepContext initCM "scope_agent" [("output", Value.vstr "S")])
        "master_context" = getContextVersion initCM "master_context" := by
  obtain ⟨h1, h2, _⟩ :=
    claim_C4_amended initCM "scope_agent" [("output", Value.vstr "S")]
  exact ⟨h1, h2 "master_context" (by decide)⟩

/-! ## Claim C3: per-unit input context freshness -/

/-- A store in which `scope_agent` already has a step context recorded
under an old master context, after which the master context changed:
the state reached by initializing `scope_agent` once, updating the
master context, and launching `scope_agent` again. -/
def cmStaleC3 : CMState :=
  { master_context := [("client_info", Value.vstr "new")],
    step_contexts := [("scope_agent", [("client_info", Value.vstr "old")])],
    context_versions := [],
    context_history := [] }

/-- C3 counterexample: `initialize_step_context` only builds a unit's
context when none exists (`if agent_id not in self.step_contexts`).
At a launch of `scope_agent` whose context was built earlier, the
callback receives the stale snapshot with the old `client_info`, not a
rebuild from the current shared context. -/
theorem claim_C3_counterexample :
    launchInput cmStaleC3 "scope_agent" = [("client_info", Value.vstr "old")] ∧
    (launchInput cmStaleC3 "scope_agent").lookup "client_info"
      ≠ some (dictGet cmStaleC3.master_context "client_info" (Value.vdict [])) := by
  refine ⟨rfl, fun h => ?_⟩
  have h' : Value.vstr "old" = Value.vstr "new" := Option.some.inj h
  injection h' with h''
  exact absurd h'' (by decide)

/-- C3 amended: the per-unit input snapshot handed to the callback is
built from the current shared context (via the static per-unit-id
table, including the stored output of the hardcoded prerequisite) only
when no context for the unit exists yet; when a context already
exists, the launch passes the stored context unchanged instead of
rebuilding it. -/
theorem claim_C3_amended (cm : CMState) (a : String) :
    (cm.step_contexts.lookup a = none → launchInput cm a = buildStepContext cm a) ∧
    (∀ c, cm.step_contexts.lookup a = some c → launchInput cm a = c) := by
  constructor
  · intro h
    rw [launchInput, initializeStepContext, if_neg (by rw [h]; simp)]
    show ((stepCtxSet cm.step_contexts a (buildStepContext cm a)).lookup a).getD [] = _
    rw [stepCtxSet, lookup_assocSet, if_pos rfl]
    rfl
  · intro c h
    rw [launchInput, initializeStepContext, if_pos (by rw [h]; simp)]
    show (cm.step_contexts.lookup a).getD [] = c
    rw [h]
    rfl

/-- Witness for C3 amended: on a fresh store the first launch of
`scope_agent` receives the freshly built snapshot, and on the stale
store the launch receives the stored context. -/
theorem claim_C3_amended_witness :
    launchInput initCM "scope_agent" = buildStepContext initCM "scope_agent" ∧
    launchInput cmStaleC3 "scope_agent" = [("client_info", Value.vstr "old")] := by
  exact ⟨(claim_C3_amended initCM "scope_agent").1 rfl,
    (claim_C3_amended cmStaleC3 "scope_agent").2 _ rfl⟩

/-! ## Claim C9: full-context rollback -/

/-- C9: recovering with the snapshot taken before the run restores the
master context and every per-unit step context exactly to that
snapshot, and resets every unit that has a status record to `pending`
with `output` and `error` cleared (units without a record stay
absent).  The rollback is full-context: the restored dicts are the
snapshot's dicts, whatever happened to them during the run. -/
theorem claim_C9_recovery_rollback (cm0 : CMState) (s : SState) :
    ((recoverFromError (createRecoveryPoint cm0) s).cm.master_context = cm0.master_context) ∧
    ((recoverFromError (createRecoveryPoint cm0) s).cm.step_contexts = cm0.step_contexts) ∧
    (∀ a st, s.status a = some st →
      (recoverFromError (createRecoveryPoint cm0) s).status a =
        some { st with state := .pending, output := none, error := none }) ∧
    (∀ a, s.status a = none → (recoverFromError (createRecoveryPoint cm0) s).status a = none) := by
  refine ⟨rfl, rfl, fun a st h => ?_, fun a h => ?_⟩
  · show (match s.status a with
      | some st => some { st with state := AState.pending, output := none, error := none }
      | none => none) = _
    rw [h]
  · show (match s.status a with
      | some st => some { st with state := AState.pending, output := none, error := none }
      | none => none) = _
    rw [h]

/-- Witness for C9: a concrete mid-run state (master context mutated,
a step context written, `scope_agent` completed with an output) rolled
back to a concrete pre-run snapshot. -/
theorem claim_C9_recovery_rollback_witness :
    (recoverFromError (createRecoveryPoint initCM)
        { status := fun a => if a = "scope_agent"
            then some { state := .completed, version := 1,
                        output := some (Value.vstr "S"), error := none }
            else none,
          cm := cmStaleC3, tasks := [], enq := fun _ => 0,
          launched := fun _ => 0 }).cm.master_context = initCM.master_context ∧
    (recoverFromError (createRecoveryPoint initCM)
        { status := fun a => if a = "scope_agent"
            then some { state := .completed, version := 1,
                        output := some (Value.vstr "S"), error := none }
            else none,
          cm := cmStaleC3, tasks := [], enq := fun _ => 0,
          launched := fun _ => 0 }).status "scope_agent" = some initialAgentStatus := by
  obtain ⟨h1, _, h3, _⟩ := claim_C9_recovery_rollback initCM
    { status := fun a => if a = "scope_agent"
        then some { state := .completed, version := 1,
                    output := some (Value.vstr "S"), error := none }
        else none,
      cm := cmStaleC3, tasks := [], enq := fun _ => 0,
      launched := fun _ => 0 }
  refine ⟨h1, ?_⟩
  rw [h3 "scope_agent"
    { state := .completed, version := 1, output := some (Value.vstr "S"), error := none }
    (by simp)]
  rfl

/-! ## Claim C5: cycle check aborts before any execution -/

/-- C5: when the dependency graph has a circular dependency, `run_all`
returns immediately after reporting the graph-level error (the abort
flag): the controller state is untouched, no task is created, no
callback is invoked (`launched` stays `0` everywhere and no scheduler
step is even possible from the resulting state), and every registered
unit's status is still the fresh `pending` record, so no per-unit
failure is recorded. -/
theorem claim_C5_cycle_aborts (cfg : SchedConfig) (cm : CMState)
    (hcyc : hasCircularDependency cfg.graph = some true) :
    runAllStart cfg (regState cfg cm) = (true, regState cfg cm) ∧
    (regState cfg cm).tasks = [] ∧
    (∀ a, (regState cfg cm).launched a = 0) ∧
    (∀ a, a ∈ cfg.registered → (regState cfg cm).status a = some initialAgentStatus) ∧
    (∀ s', ¬ Step cfg (regState cfg cm) s') := by
  refine ⟨by rw [runAllStart, if_pos hcyc], rfl, fun a => rfl, fun a ha => ?_, fun s' hstep => ?_⟩
  · show (if a ∈ cfg.registered then some initialAgentStatus else none) = _
    rw [if_pos ha]
  · have htasks : (regState cfg cm).tasks = [] := rfl
    cases hstep with
    | skip l₁ l₂ a ini h _ => rw [htasks] at h; exact absurd h.symm (by simp)
    | start l₁ l₂ a ini h _ => rw [htasks] at h; exact absurd h.symm (by simp)
    | finishOk l₁ l₂ a ini out h => rw [htasks] at h; exact absurd h.symm (by simp)
    | finishFail l₁ l₂ a ini e h => rw [htasks] at h; exact absurd h.symm (by simp)

/-- A three-node cycle `A → B → C → A`, registered in that order. -/
def cfgCyc : SchedConfig :=
  { graph := ⟨[("A", ["B"]), ("B", ["C"]), ("C", ["A"])]⟩,
    registered := ["A", "B", "C"] }

/-- Witness for C5 on the concrete cyclic graph `A → B → C → A`. -/
theorem claim_C5_cycle_aborts_witness :
    runAllStart cfgCyc (regState cfgCyc initCM) = (true, regState cfgCyc initCM) ∧
    (regState cfgCyc initCM).status "A" = some initialAgentStatus := by
  obtain ⟨h1, _, _, h4, _⟩ := claim_C5_cycle_aborts cfgCyc initCM (by decide)
  exact ⟨h1, h4 "A" (by decide)⟩

/-! ## Task-counting and status lemmas -/

theorem cntQ_append (l₁ l₂ : List ATask) (a : String) :
    cntQ (l₁ ++ l₂) a = cntQ l₁ a + cntQ l₂ a := by
  simp [cntQ, List.filter_append]

theorem cntR_append (l₁ l₂ : List ATask) (a : String) :
    cntR (l₁ ++ l₂) a = cntR l₁ a + cntR l₂ a := by
  simp [cntR, List.filter_append]

theorem cntQ_cons_queued (b : String) (i : Bool) (l : List ATask) (a : String) :
    cntQ (ATask.queued b i :: l) a = (if b = a then 1 else 0) + cntQ l a := by
  by_cases h : b = a <;>
    simp [cntQ, List.filter_cons, ATask.isQueuedFor, h, Nat.add_comm]

theorem cntQ_cons_running (b : String) (i : Bool) (l : List ATask) (a : String) :
    cntQ (ATask.running b i :: l) a = cntQ l a := by
  simp [cntQ, List.filter_cons, ATask.isQueuedFor]

theorem cntR_cons_running (b : String) (i : Bool) (l : List ATask) (a : String) :
    cntR (ATask.running b i :: l) a = (if b = a then 1 else 0) + cntR l a := by
  by_cases h : b = a <;>
    simp [cntR, List.filter_cons, ATask.isRunningFor, h, Nat.add_comm]

theorem cntR_cons_queued (b : String) (i : Bool) (l : List ATask) (a : String) :
    cntR (ATask.queued b i :: l) a = cntR l a := by
  simp [cntR, List.filter_cons, ATask.isRunningFor]

theorem cntQ_map_queued (names : List String) (i : Bool) (a : String) :
    cntQ (names.map (fun d => ATask.queued d i)) a = names.count a := by
  induction names with
  | nil => rfl
  | cons n names ih =>
    rw [List.map_cons, cntQ_cons_queued, ih, List.count_cons]
    by_cases h : n = a
    · simp [h, Nat.add_comm]
    · simp [h, fun e : a = n => h e.symm]

theorem cntR_map_queued (names : List String) (i : Bool) (a : String) :
    cntR (names.map (fun d => ATask.queued d i)) a = 0 := by
  induction names with
  | nil => rfl
  | cons n names ih => rw [List.map_cons, cntR_cons_queued, ih]

theorem statusSet_self (st : StatusMap) (a : String) (v : AgentStatus) :
    statusSet st a v a = some v := by
  simp [statusSet]

theorem statusSet_other (st : StatusMap) (a b : String) (v : AgentStatus) (h : b ≠ a) :
    statusSet st a v b = st b := by
  simp [statusSet, h]

/-! ## check_dependencies_met lemmas -/

/-- If some dependency of `b` is not recorded as completed, the check
fails. -/
theorem check_false_of_dep (g : DependencyGraph) (st : StatusMap) (b a : String)
    (hdep : a ∈ depsOf g b)
    (ha : ∀ r, st a = some r → r.state ≠ .completed) :
    checkDependenciesMet g st b = false := by
  rw [checkDependenciesMet]
  rw [List.all_eq_false]
  refine ⟨a, hdep, ?_⟩
  cases h : st a with
  | none => simp
  | some r => simpa using ha r h

/-- Completing one agent's status cannot break another agent's
dependency check. -/
theorem check_true_complete_update (g : DependencyGraph) (st : StatusMap) (b a : String)
    (r : AgentStatus) (hr : r.state = .completed)
    (h : checkDependenciesMet g st b = true) :
    checkDependenciesMet g (statusSet st a r) b = true := by
  rw [checkDependenciesMet, List.all_eq_true] at h ⊢
  intro e he
  by_cases hea : e = a
  · rw [hea, statusSet_self]
    simp [hr]
  · rw [statusSet_other st a e r hea]
    exact h e he

/-- Rewriting the status of an agent that was not recorded completed
cannot turn a dependency check from true to false (the check could not
have depended on that agent). -/
theorem check_true_noncompleted_update (g : DependencyGraph) (st : StatusMap) (b a : String)
    (r : AgentStatus) (ha : ∀ q, st a = some q → q.state ≠ .completed)
    (h : checkDependenciesMet g st b = true) :
    checkDependenciesMet g (statusSet st a r) b = true := by
  rw [checkDependenciesMet, List.all_eq_true] at h ⊢
  intro e he
  by_cases hea : e = a
  · exfalso
    have := h e he
    rw [hea] at this
    cases hq : st a with
    | none => rw [hq] at this; simp at this
    | some q =>
      rw [hq] at this
      simp at this
      exact ha q hq this
  · rw [statusSet_other st a e r hea]
    exact h e he

/-! ## Graph membership lemmas -/

theorem mem_keys_of_lookup {α : Type} (l : List (String × α)) (k : String) (v : α)
    (h : l.lookup k = some v) : k ∈ l.map Prod.fst := by
  induction l with
  | nil => simp at h
  | cons p l ih =>
    rw [lookup_cons_ite] at h
    by_cases hk : k = p.1
    · simp [hk]
    · rw [if_neg hk] at h
      simp [ih h]

theorem lookup_of_mem_nodup {α : Type} (l : List (String × α)) (k : String) (v : α)
    (hn : (l.map Prod.fst).Nodup) (h : (k, v) ∈ l) : l.lookup k = some v := by
  induction l with
  | nil => simp at h
  | cons p l ih =>
    rw [List.map_cons, List.nodup_cons] at hn
    rcases List.mem_cons.mp h with he | hm
    · rw [← he, lookup_cons_ite, if_pos rfl]
    · rw [lookup_cons_ite]
      by_cases hk : k = p.1
      · exfalso
        refine hn.1 ?_
        rw [← hk]
        exact List.mem_map.mpr ⟨(k, v), hm, rfl⟩
      · rw [if_neg hk]
        exact ih hn.2 hm

theorem getDependents_subset_keys (g : DependencyGraph) (a d : String)
    (h : d ∈ getDependents g a) : d ∈ graphKeys g := by
  rw [getDependents] at h
  rcases List.mem_map.mp h with ⟨p, hp, hd⟩
  exact hd ▸ List.mem_map.mpr ⟨p, List.mem_of_mem_filter hp, rfl⟩

theorem getDependents_nodup (g : DependencyGraph) (a : String)
    (hn : (graphKeys g).Nodup) : (getDependents g a).Nodup := by
  rw [getDependents]
  exact List.Nodup.sublist
    (List.Sublist.map Prod.fst (List.filter_sublist g.dependencies)) hn

theorem mem_getDependents_deps (g : DependencyGraph) (a d : String)
    (hn : (graphKeys g).Nodup) (h : d ∈ getDependents g a) : a ∈ depsOf g d := by
  rw [getDependents] at h
  rcases List.mem_map.mp h with ⟨p, hp, hd⟩
  have hmem := List.mem_of_mem_filter hp
  have hprop := List.of_mem_filter hp
  rw [depsOf, ← hd]
  rw [lookup_of_mem_nodup g.dependencies p.1 p.2 hn hmem]
  simpa using hprop

theorem mem_keys_of_deps_ne (g : DependencyGraph) (d : String)
    (h : depsOf g d ≠ []) : d ∈ graphKeys g := by
  rw [depsOf] at h
  cases hl : g.dependencies.lookup d with
  | none => rw [hl] at h; simp at h
  | some l => exact mem_keys_of_lookup g.dependencies d l hl

/-! ## Run invariant -/

/-- Middle-element counting identities. -/
theorem cntQ_mid_queued (l₁ l₂ : List ATask) (a : String) (ini : Bool) (b : String) :
    cntQ (l₁ ++ ATask.queued a ini :: l₂) b =
      cntQ (l₁ ++ l₂) b + (if a = b then 1 else 0) := by
  rw [cntQ_append, cntQ_cons_queued, cntQ_append]
  omega

theorem cntR_mid_queued (l₁ l₂ : List ATask) (a : String) (ini : Bool) (b : String) :
    cntR (l₁ ++ ATask.queued a ini :: l₂) b = cntR (l₁ ++ l₂) b := by
  rw [cntR_append, cntR_cons_queued, cntR_append]

theorem cntR_mid_running (l₁ l₂ : List ATask) (a : String) (ini : Bool) (b : String) :
    cntR (l₁ ++ ATask.running a ini :: l₂) b =
      cntR (l₁ ++ l₂) b + (if a = b then 1 else 0) := by
  rw [cntR_append, cntR_cons_running, cntR_append]
  omega

theorem cntQ_mid_running (l₁ l₂ : List ATask) (a : String) (ini : Bool) (b : String) :
    cntQ (l₁ ++ ATask.running a ini :: l₂) b = cntQ (l₁ ++ l₂) b := by
  rw [cntQ_append, cntQ_cons_running, cntQ_append]

/-- `1` when the recorded state is terminal (`completed` or `failed`),
`0` when it is `pending` or absent. -/
def termFlag (st : StatusMap) (a : String) : Nat :=
  match st a with
  | some r => if r.state = .pending then 0 else 1
  | none => 0

theorem termFlag_of_eq (st : StatusMap) (a : String) (r : AgentStatus)
    (h : st a = some r) :
    termFlag st a = if r.state = .pending then 0 else 1 := by
  simp [termFlag, h]

theorem termFlag_of_none (st : StatusMap) (a : String) (h : st a = none) :
    termFlag st a = 0 := by
  simp [termFlag, h]

theorem termFlag_statusSet_other (st : StatusMap) (a b : String) (v : AgentStatus)
    (h : b ≠ a) : termFlag (statusSet st a v) b = termFlag st b := by
  rw [termFlag, termFlag, statusSet_other st a b v h]

/-- The invariant maintained by every run of the scheduler:
each agent is enqueued at most once (`enq_le_one`); queued tasks and
callback invocations are bounded by enqueues (`q_launch`); running
tasks and terminal statuses are bounded by invocations (`r_term`);
an agent whose dependency check fails was never enqueued (`blocked`);
a status record is either still the registration record or terminal
(`status_shape`); and only registered agents are ever enqueued
(`enq_reg`). -/
structure RunInv (cfg : SchedConfig) (s : SState) : Prop where
  enq_le_one : ∀ a, s.enq a ≤ 1
  q_launch : ∀ a, cntQ s.tasks a + s.launched a ≤ s.enq a
  r_term : ∀ a, cntR s.tasks a + termFlag s.status a ≤ s.launched a
  blocked : ∀ a, checkDependenciesMet cfg.graph s.status a = false → s.enq a = 0
  status_shape : ∀ a,
    s.status a = (if a ∈ cfg.registered then some initialAgentStatus else none) ∨
    ∃ r, s.status a = some r ∧ r.state ≠ AState.pending
  enq_reg : ∀ a, s.enq a ≠ 0 → a ∈ cfg.registered

/-- In an invariant state, the agent of a running task is a registered
agent whose status is still the fresh `pending` record, launched
exactly once from its single enqueue, with no other task of its own. -/
theorem running_pending (cfg : SchedConfig) (s : SState) (hinv : RunInv cfg s)
    (a : String) (h : 1 ≤ cntR s.tasks a) :
    s.status a = some initialAgentStatus ∧ s.launched a = 1 ∧ s.enq a = 1 ∧
    cntQ s.tasks a = 0 ∧ termFlag s.status a = 0 ∧ a ∈ cfg.registered := by
  have h1 := hinv.r_term a
  have h2 := hinv.q_launch a
  have h3 := hinv.enq_le_one a
  have hl : s.launched a = 1 := by omega
  have ht : termFlag s.status a = 0 := by omega
  have hq : cntQ s.tasks a = 0 := by omega
  have he : s.enq a = 1 := by omega
  have hreg : a ∈ cfg.registered := hinv.enq_reg a (by omega)
  refine ⟨?_, hl, he, hq, ht, hreg⟩
  rcases hinv.status_shape a with hs | ⟨r, hr, hrne⟩
  · rw [hs, if_pos hreg]
  · rw [termFlag_of_eq s.status a r hr, if_neg hrne] at ht
    exact absurd ht (by decide)

/-- The invariant holds in the state `run_all` starts from. -/
theorem inv_startState (cfg : SchedConfig) (cm : CMState) (hwf : WFConfig cfg) :
    RunInv cfg (startState cfg cm) := by
  rw [startState, runAllStart]
  by_cases hcyc : hasCircularDependency cfg.graph = some true
  · rw [if_pos hcyc]
    exact {
      enq_le_one := fun a => Nat.zero_le 1
      q_launch := fun a => Nat.le_refl 0
      r_term := fun a => by
        have : cntR (regState cfg cm).tasks a = 0 := rfl
        rw [this]
        by_cases hm : a ∈ cfg.registered
        · rw [termFlag_of_eq _ a initialAgentStatus (by
            show (if a ∈ cfg.registered then some initialAgentStatus else none) = _
            rw [if_pos hm])]
          simp [initialAgentStatus]
        · rw [termFlag_of_none _ a (by
            show (if a ∈ cfg.registered then some initialAgentStatus else none) = none
            rw [if_neg hm])]
          exact Nat.le_refl 0
      blocked := fun a _ => rfl
      status_shape := fun a => Or.inl rfl
      enq_reg := fun a h => absurd rfl h }
  · rw [if_neg hcyc]
    have hseeds : (cfg.registered.filter
        (fun a => checkDependenciesMet cfg.graph (regState cfg cm).status a)).Nodup :=
      List.Nodup.filter _ hwf.nodupReg
    refine {
      enq_le_one := fun a => ?_
      q_launch := fun a => ?_
      r_term := fun a => ?_
      blocked := fun a hchk => ?_
      status_shape := fun a => Or.inl rfl
      enq_reg := fun a h => ?_ }
    · show 0 + List.count a _ ≤ 1
      rw [Nat.zero_add]
      exact List.nodup_iff_count_le_one.mp hseeds a
    · show cntQ ([] ++ List.map _ _) a + 0 ≤ 0 + List.count a _
      rw [List.nil_append, cntQ_map_queued, Nat.add_zero, Nat.zero_add]
    · show cntR ([] ++ List.map _ _) a + termFlag _ a ≤ 0
      rw [List.nil_append, cntR_map_queued]
      by_cases hm : a ∈ cfg.registered
      · rw [termFlag_of_eq _ a initialAgentStatus (by
          show (if a ∈ cfg.registered then some initialAgentStatus else none) = _
          rw [if_pos hm])]
        simp [initialAgentStatus]
      · rw [termFlag_of_none _ a (by
          show (if a ∈ cfg.registered then some initialAgentStatus else none) = none
          rw [if_neg hm])]
    · show 0 + List.count a _ = 0
      rw [Nat.zero_add, List.count_eq_zero]
      intro hmem
      have := List.of_mem_filter hmem
      rw [hchk] at this
      exact absurd this (by decide)
    · show a ∈ cfg.registered
      have : List.count a (cfg.registered.filter
          (fun a => checkDependenciesMet cfg.graph (regState cfg cm).status a)) ≠ 0 := by
        intro hz
        exact h (by show 0 + _ = 0; rw [Nat.zero_add, hz])
      exact List.mem_of_mem_filter (List.count_pos_iff.mp (Nat.pos_of_ne_zero this))

/-- Invariant preservation: a queued task whose dependency check fails
just leaves the loop. -/
theorem inv_skip (cfg : SchedConfig) (s : SState) (l₁ l₂ : List ATask)
    (a : String) (ini : Bool) (hinv : RunInv cfg s)
    (htasks : s.tasks = l₁ ++ ATask.queued a ini :: l₂) :
    RunInv cfg (applySkip s l₁ l₂) := by
  refine {
    enq_le_one := hinv.enq_le_one
    q_launch := fun b => ?_
    r_term := fun b => ?_
    blocked := hinv.blocked
    status_shape := hinv.status_shape
    enq_reg := hinv.enq_reg }
  · have h := hinv.q_launch b
    rw [htasks, cntQ_mid_queued] at h
    show cntQ (l₁ ++ l₂) b + s.launched b ≤ s.enq b
    omega
  · have h := hinv.r_term b
    rw [htasks, cntR_mid_queued] at h
    exact h

/-- Invariant preservation: a queued task whose dependency check
passes starts running (the callback is invoked). -/
theorem inv_startTask (cfg : SchedConfig) (s : SState) (l₁ l₂ : List ATask)
    (a : String) (ini : Bool) (hinv : RunInv cfg s)
    (htasks : s.tasks = l₁ ++ ATask.queued a ini :: l₂) :
    RunInv cfg (applyStart s l₁ l₂ a ini) := by
  refine {
    enq_le_one := hinv.enq_le_one
    q_launch := fun b => ?_
    r_term := fun b => ?_
    blocked := hinv.blocked
    status_shape := hinv.status_shape
    enq_reg := hinv.enq_reg }
  · have h := hinv.q_launch b
    rw [htasks, cntQ_mid_queued] at h
    show cntQ (l₁ ++ ATask.running a ini :: l₂) b + bumpAt s.launched a b ≤ s.enq b
    rw [cntQ_mid_running, bumpAt]
    by_cases hb : b = a
    · subst hb
      rw [if_pos rfl] at h
      rw [if_pos rfl]
      omega
    · rw [if_neg (fun e : a = b => hb e.symm)] at h
      rw [if_neg hb]
      omega
  · have h := hinv.r_term b
    rw [htasks, cntR_mid_queued] at h
    show cntR (l₁ ++ ATask.running a ini :: l₂) b + termFlag s.status b ≤ bumpAt s.launched a b
    rw [cntR_mid_running, bumpAt]
    by_cases hb : b = a
    · subst hb
      rw [if_pos rfl]
      rw [if_pos rfl]
      omega
    · rw [if_neg (fun e : a = b => hb e.symm), if_neg hb]
      omega

/-- Invariant preservation: a callback raises; the agent's status
flips to `failed` and nothing else happens. -/
theorem inv_finishFail (cfg : SchedConfig) (s : SState) (l₁ l₂ : List ATask)
    (a : String) (ini : Bool) (e : String) (hinv : RunInv cfg s)
    (htasks : s.tasks = l₁ ++ ATask.running a ini :: l₂) :
    RunInv cfg (applyFinishFail s l₁ l₂ a e) := by
  have hrun : 1 ≤ cntR s.tasks a := by
    rw [htasks, cntR_mid_running, if_pos rfl]
    omega
  obtain ⟨hst, hl, he, hq, ht, hreg⟩ := running_pending cfg s hinv a hrun
  have hone : cntR (l₁ ++ l₂) a = 0 := by
    have := hinv.r_term a
    rw [htasks, cntR_mid_running, if_pos rfl] at this
    omega
  have hred : applyFinishFail s l₁ l₂ a e =
      { s with status := statusSet s.status a (failStatus initialAgentStatus e),
               tasks := l₁ ++ l₂ } := by
    simp [applyFinishFail, hst]
  rw [hred]
  refine {
    enq_le_one := hinv.enq_le_one
    q_launch := fun b => ?_
    r_term := fun b => ?_
    blocked := fun b hchk => ?_
    status_shape := fun b => ?_
    enq_reg := hinv.enq_reg }
  · show cntQ (l₁ ++ l₂) b + s.launched b ≤ s.enq b
    have h := hinv.q_launch b
    rw [htasks, cntQ_mid_running] at h
    exact h
  · show cntR (l₁ ++ l₂) b + termFlag (statusSet s.status a (failStatus initialAgentStatus e)) b
      ≤ s.launched b
    have h := hinv.r_term b
    rw [htasks, cntR_mid_running] at h
    by_cases hb : b = a
    · rw [hb, hone,
        termFlag_of_eq _ a (failStatus initialAgentStatus e) (statusSet_self _ _ _),
        if_neg (by simp [failStatus, initialAgentStatus]), hl]
    · rw [termFlag_statusSet_other s.status a b _ hb]
      rw [if_neg (fun h' : a = b => hb h'.symm)] at h
      omega
  · show s.enq b = 0
    have hchk' : checkDependenciesMet cfg.graph
        (statusSet s.status a (failStatus initialAgentStatus e)) b = false := hchk
    refine hinv.blocked b ?_
    cases hold : checkDependenciesMet cfg.graph s.status b with
    | false => rfl
    | true =>
      exfalso
      have := check_true_noncompleted_update cfg.graph s.status b a
        (failStatus initialAgentStatus e)
        (fun q hq' => by
          rw [hst] at hq'
          cases hq'
          simp [initialAgentStatus])
        hold
      rw [this] at hchk'
      exact absurd hchk' (by decide)
  · show statusSet s.status a (failStatus initialAgentStatus e) b =
        (if b ∈ cfg.registered then some initialAgentStatus else none) ∨
      ∃ r, statusSet s.status a (failStatus initialAgentStatus e) b = some r ∧
        r.state ≠ AState.pending
    by_cases hb : b = a
    · rw [hb]
      exact Or.inr ⟨failStatus initialAgentStatus e, statusSet_self _ _ _,
        by simp [failStatus, initialAgentStatus]⟩
    · rw [statusSet_other s.status a b _ hb]
      exact hinv.status_shape b

/-- Invariant preservation: a callback returns; the agent completes
and each newly-eligible dependent is enqueued exactly once. -/
theorem inv_finishOk (cfg : SchedConfig) (s : SState) (l₁ l₂ : List ATask)
    (a : String) (ini : Bool) (out : Value) (hwf : WFConfig cfg) (hinv : RunInv cfg s)
    (htasks : s.tasks = l₁ ++ ATask.running a ini :: l₂) :
    RunInv cfg (applyFinishOk cfg s l₁ l₂ a out) := by
  have hrun : 1 ≤ cntR s.tasks a := by
    rw [htasks, cntR_mid_running, if_pos rfl]
    omega
  obtain ⟨hst, hl, he, hq, ht, hreg⟩ := running_pending cfg s hinv a hrun
  have hone : cntR (l₁ ++ l₂) a = 0 := by
    have := hinv.r_term a
    rw [htasks, cntR_mid_running, if_pos rfl] at this
    omega
  have hred : applyFinishOk cfg s l₁ l₂ a out =
      { status := statusSet s.status a (completeStatus initialAgentStatus out),
        cm := updateStepContext s.cm a [("output", out)],
        tasks := l₁ ++ l₂ ++ (triggeredDependents cfg.graph
          (statusSet s.status a (completeStatus initialAgentStatus out)) a).map
            (fun d => ATask.queued d false),
        enq := bumpList s.enq (triggeredDependents cfg.graph
          (statusSet s.status a (completeStatus initialAgentStatus out)) a),
        launched := s.launched } := by
    simp [applyFinishOk, hst]
  rw [hred]
  have hnodupNames : (triggeredDependents cfg.graph
      (statusSet s.status a (completeStatus initialAgentStatus out)) a).Nodup :=
    List.Nodup.filter _ (getDependents_nodup cfg.graph a hwf.nodupGraph)
  have hcount := List.nodup_iff_count_le_one.mp hnodupNames
  have hmemN : ∀ d ∈ triggeredDependents cfg.graph
      (statusSet s.status a (completeStatus initialAgentStatus out)) a,
      d ∈ getDependents cfg.graph a ∧
      checkDependenciesMet cfg.graph
        (statusSet s.status a (completeStatus initialAgentStatus out)) d = true :=
    fun d hd => by
      rw [triggeredDependents] at hd
      exact ⟨List.mem_of_mem_filter hd, List.of_mem_filter hd⟩
  have henq0 : ∀ d ∈ triggeredDependents cfg.graph
      (statusSet s.status a (completeStatus initialAgentStatus out)) a,
      s.enq d = 0 := fun d hd =>
    hinv.blocked d (check_false_of_dep cfg.graph s.status d a
      (mem_getDependents_deps cfg.graph a d hwf.nodupGraph (hmemN d hd).1)
      (fun r hr => by
        rw [hst] at hr
        cases hr
        simp [initialAgentStatus]))
  refine {
    enq_le_one := fun b => ?_
    q_launch := fun b => ?_
    r_term := fun b => ?_
    blocked := fun b hchk => ?_
    status_shape := fun b => ?_
    enq_reg := fun b hb => ?_ }
  · show s.enq b + List.count b _ ≤ 1
    by_cases hc : List.count b (triggeredDependents cfg.graph
        (statusSet s.status a (completeStatus initialAgentStatus out)) a) = 0
    · rw [hc]
      have := hinv.enq_le_one b
      omega
    · have hmem : b ∈ triggeredDependents cfg.graph
          (statusSet s.status a (completeStatus initialAgentStatus out)) a :=
        List.count_pos_iff.mp (Nat.pos_of_ne_zero hc)
      have h0 := henq0 b hmem
      have h1 := hcount b
      omega
  · show cntQ (l₁ ++ l₂ ++ _) b + s.launched b ≤ s.enq b + List.count b _
    rw [cntQ_append, cntQ_map_queued]
    have h := hinv.q_launch b
    rw [htasks, cntQ_mid_running] at h
    omega
  · show cntR (l₁ ++ l₂ ++ _) b +
      termFlag (statusSet s.status a (completeStatus initialAgentStatus out)) b
        ≤ s.launched b
    rw [cntR_append, cntR_map_queued, Nat.add_zero]
    have h := hinv.r_term b
    rw [htasks, cntR_mid_running] at h
    by_cases hb : b = a
    · rw [hb, hone,
        termFlag_of_eq _ a (completeStatus initialAgentStatus out) (statusSet_self _ _ _),
        if_neg (by simp [completeStatus, initialAgentStatus]), hl]
    · rw [termFlag_statusSet_other s.status a b _ hb]
      rw [if_neg (fun h' : a = b => hb h'.symm)] at h
      omega
  · show s.enq b + List.count b _ = 0
    have hchk' : checkDependenciesMet cfg.graph
        (statusSet s.status a (completeStatus initialAgentStatus out)) b = false := hchk
    have hbnotin : b ∉ triggeredDependents cfg.graph
        (statusSet s.status a (completeStatus initialAgentStatus out)) a := by
      intro hm
      have := (hmemN b hm).2
      rw [hchk'] at this
      exact absurd this (by decide)
    rw [List.count_eq_zero.mpr hbnotin, Nat.add_zero]
    refine hinv.blocked b ?_
    cases hold : checkDependenciesMet cfg.graph s.status b with
    | false => rfl
    | true =>
      exfalso
      have := check_true_complete_update cfg.graph s.status b a
        (completeStatus initialAgentStatus out) rfl hold
      rw [this] at hchk'
      exact absurd hchk' (by decide)
  · show statusSet s.status a (completeStatus initialAgentStatus out) b =
        (if b ∈ cfg.registered then some initialAgentStatus else none) ∨
      ∃ r, statusSet s.status a (completeStatus initialAgentStatus out) b = some r ∧
        r.state ≠ AState.pending
    by_cases hb : b = a
    · rw [hb]
      exact Or.inr ⟨completeStatus initialAgentStatus out, statusSet_self _ _ _,
        by simp [completeStatus, initialAgentStatus]⟩
    · rw [statusSet_other s.status a b _ hb]
      exact hinv.status_shape b
  · replace hb : s.enq b + List.count b (triggeredDependents cfg.graph
        (statusSet s.status a (completeStatus initialAgentStatus out)) a) ≠ 0 := hb
    by_cases hc : List.count b (triggeredDependents cfg.graph
        (statusSet s.status a (completeStatus initialAgentStatus out)) a) = 0
    · exact hinv.enq_reg b (by omega)
    · have hmem : b ∈ triggeredDependents cfg.graph
          (statusSet s.status a (completeStatus initialAgentStatus out)) a :=
        List.count_pos_iff.mp (Nat.pos_of_ne_zero hc)
      exact hwf.keysReg b
        (getDependents_subset_keys cfg.graph a b (hmemN b hmem).1)

/-- The invariant is preserved by every scheduler step. -/
theorem inv_step (cfg : SchedConfig) (hwf : WFConfig cfg) (s s' : SState)
    (hinv : RunInv cfg s) (hstep : Step cfg s s') : RunInv cfg s' := by
  cases hstep with
  | skip l₁ l₂ a ini htasks hchk => exact inv_skip cfg s l₁ l₂ a ini hinv htasks
  | start l₁ l₂ a ini htasks hchk => exact inv_startTask cfg s l₁ l₂ a ini hinv htasks
  | finishOk l₁ l₂ a ini out htasks => exact inv_finishOk cfg s l₁ l₂ a ini out hwf hinv htasks
  | finishFail l₁ l₂ a ini e htasks => exact inv_finishFail cfg s l₁ l₂ a ini e hinv htasks

/-- The invariant holds in every reachable state of a run. -/
theorem inv_reachable (cfg : SchedConfig) (cm : CMState) (s : SState)
    (hwf : WFConfig cfg) (hre : Reachable cfg cm s) : RunInv cfg s := by
  induction hre with
  | refl => exact inv_startState cfg cm hwf
  | tail _ hstep ih => exact inv_step cfg hwf _ _ ih hstep

/-- In an invariant state, a terminal status record survives any
single scheduler step unchanged. -/
theorem terminal_absorbing (cfg : SchedConfig) (s s' : SState)
    (hinv : RunInv cfg s) (hstep : Step cfg s s') (a : String) (r : AgentStatus)
    (h : s.status a = some r) (hr : r.state ≠ .pending) : s'.status a = some r := by
  cases hstep with
  | skip l₁ l₂ b ini htasks hchk => exact h
  | start l₁ l₂ b ini htasks hchk => exact h
  | finishOk l₁ l₂ b ini out htasks =>
    have hrun : 1 ≤ cntR s.tasks b := by
      rw [htasks, cntR_mid_running, if_pos rfl]
      omega
    obtain ⟨hstb, _, _, _, _, _⟩ := running_pending cfg s hinv b hrun
    have hba : a ≠ b := by
      intro e
      rw [e, hstb] at h
      cases h
      exact hr rfl
    show (applyFinishOk cfg s l₁ l₂ b out).status a = some r
    rw [show applyFinishOk cfg s l₁ l₂ b out =
      { status := statusSet s.status b (completeStatus initialAgentStatus out),
        cm := updateStepContext s.cm b [("output", out)],
        tasks := l₁ ++ l₂ ++ (triggeredDependents cfg.graph
          (statusSet s.status b (completeStatus initialAgentStatus out)) b).map
            (fun d => ATask.queued d false),
        enq := bumpList s.enq (triggeredDependents cfg.graph
          (statusSet s.status b (completeStatus initialAgentStatus out)) b),
        launched := s.launched } from by simp [applyFinishOk, hstb]]
    show statusSet s.status b (completeStatus initialAgentStatus out) a = some r
    rw [statusSet_other s.status b a _ hba]
    exact h
  | finishFail l₁ l₂ b ini e htasks =>
    have hrun : 1 ≤ cntR s.tasks b := by
      rw [htasks, cntR_mid_running, if_pos rfl]
      omega
    obtain ⟨hstb, _, _, _, _, _⟩ := running_pending cfg s hinv b hrun
    have hba : a ≠ b := by
      intro e'
      rw [e', hstb] at h
      cases h
      exact hr rfl
    show (applyFinishFail s l₁ l₂ b e).status a = some r
    rw [show applyFinishFail s l₁ l₂ b e =
      { s with status := statusSet s.status b (failStatus initialAgentStatus e),
               tasks := l₁ ++ l₂ } from by simp [applyFinishFail, hstb]]
    show statusSet s.status b (failStatus initialAgentStatus e) a = some r
    rw [statusSet_other s.status b a _ hba]
    exact h

/-- In an invariant state, a dependent of an agent recorded as failed
was never launched and still carries the fresh `pending` record. -/
theorem failed_dep_frozen (cfg : SchedConfig) (s : SState) (hwf : WFConfig cfg)
    (hinv : RunInv cfg s) (a d : String) (r : AgentStatus)
    (ha : s.status a = some r) (hr : r.state = .failed)
    (hdep : a ∈ depsOf cfg.graph d) :
    s.launched d = 0 ∧ s.status d = some initialAgentStatus := by
  have hchk : checkDependenciesMet cfg.graph s.status d = false :=
    check_false_of_dep cfg.graph s.status d a hdep
      (fun q hq => by rw [ha] at hq; cases hq; rw [hr]; decide)
  have henq : s.enq d = 0 := hinv.blocked d hchk
  have hql := hinv.q_launch d
  have hrt := hinv.r_term d
  have hl0 : s.launched d = 0 := by omega
  have ht0 : termFlag s.status d = 0 := by omega
  refine ⟨hl0, ?_⟩
  have hdreg : d ∈ cfg.registered := by
    refine hwf.keysReg d (mem_keys_of_deps_ne cfg.graph d ?_)
    intro hnil
    rw [hnil] at hdep
    exact absurd hdep (List.not_mem_nil a)
  rcases hinv.status_shape d with hs | ⟨q, hq, hqne⟩
  · rw [hs, if_pos hdreg]
  · rw [termFlag_of_eq s.status d q hq, if_neg hqne] at ht0
    exact absurd ht0 (by decide)

/-! ## Claim C1: each unit's callback is invoked at most once per run -/

/-- C1: in every state reachable during a run (under any interleaving
of task resumptions, covering prerequisites that complete concurrently
and race to trigger a shared dependent), every agent's callback has
been invoked at most once. -/
theorem claim_C1_launched_at_most_once (cfg : SchedConfig) (cm : CMState) (s : SState)
    (hwf : WFConfig cfg) (hre : Reachable cfg cm s) (a : String) :
    s.launched a ≤ 1 := by
  have hinv := inv_reachable cfg cm s hwf hre
  have h1 := hinv.q_launch a
  have h2 := hinv.enq_le_one a
  omega

/-! ## A concrete run: `B` depends on `A`

This two-agent configuration drives the witnesses below and the C2
counter-evidence: `run_all` seeds only the task for `A`; `A`'s
completion spawns `B`'s task through `_trigger_dependents`. -/

/-- Agents `A` (no dependencies) and `B` (depends on `A`). -/
def cfgFF : SchedConfig :=
  { graph := ⟨[("B", ["A"])]⟩, registered := ["A", "B"] }

theorem wfFF : WFConfig cfgFF :=
  ⟨by decide, by decide, by decide⟩

/-- The state after `run_all`'s seeding: one initial task for `A`. -/
def sFF0 : SState := startState cfgFF initCM

/-- `A`'s task starts (its callback is invoked). -/
def sFF1 : SState := applyStart sFF0 [] [] "A" true

/-- `A`'s callback returns; `A` completes and `B`'s task is created by
`_trigger_dependents` with `initial = false` (fire-and-forget). -/
def sFF2 : SState := applyFinishOk cfgFF sFF1 [] [] "A" (Value.vstr "out")

/-- `B`'s task starts; `A`'s initial task is long gone, so
`asyncio.gather` inside `run_all` has already returned. -/
def sFF3 : SState := applyStart sFF2 [] [] "B" false

theorem step_sFF01 : Step cfgFF sFF0 sFF1 :=
  Step.start sFF0 [] [] "A" true rfl rfl

theorem step_sFF12 : Step cfgFF sFF1 sFF2 :=
  Step.finishOk sFF1 [] [] "A" true (Value.vstr "out") rfl

theorem step_sFF23 : Step cfgFF sFF2 sFF3 :=
  Step.start sFF2 [] [] "B" false rfl rfl

theorem reach_sFF1 : Reachable cfgFF initCM sFF1 :=
  Relation.ReflTransGen.single step_sFF01

theorem reach_sFF2 : Reachable cfgFF initCM sFF2 :=
  reach_sFF1.tail step_sFF12

theorem reach_sFF3 : Reachable cfgFF initCM sFF3 :=
  reach_sFF2.tail step_sFF23

/-- Witness for C1 on the concrete run. -/
theorem claim_C1_launched_at_most_once_witness :
    sFF3.launched "B" ≤ 1 :=
  claim_C1_launched_at_most_once cfgFF initCM sFF3 wfFF reach_sFF3 "B"

/-! ## Claim C2: `run_all` returns while spawned tasks are outstanding -/

/-- C2 (code bug evidence): `run_all` gathers only the tasks it
created itself; tasks spawned transitively by `_trigger_dependents`
are not tracked.  In the reachable state `sFF3` every `initial` task
(the set `asyncio.gather` awaits) has finished, so `run_all` has
returned; yet the transitively-spawned task for `B` is still
outstanding (running), `B`'s status is still `pending`, and `B` is
eligible — the system is not quiescent at return, contradicting the
claim that `run_all` awaits every transitively spawned task. -/
theorem claim_C2_run_all_returns_before_quiescence :
    Reachable cfgFF initCM sFF3 ∧
    sFF3.tasks = [ATask.running "B" false] ∧
    (ATask.running "B" false).isInitial = false ∧
    sFF3.status "B" = some initialAgentStatus ∧
    checkDependenciesMet cfgFF.graph sFF3.status "B" = true :=
  ⟨reach_sFF3, rfl, rfl, rfl, rfl⟩

/-! ## Claim C8: terminal states are absorbing -/

/-- C8: once a unit's status is `completed` or `failed`, no scheduler
step within the run changes it; the only way out is the external
recovery reset, which flips every recorded status back to `pending`
and clears `output` and `error`. -/
theorem claim_C8_terminal_absorbing (cfg : SchedConfig) (cm : CMState)
    (hwf : WFConfig cfg) :
    (∀ s s' a r, Reachable cfg cm s → Step cfg s s' → s.status a = some r →
      r.state ≠ .pending → s'.status a = some r) ∧
    (∀ rp s a r, s.status a = some r →
      (recoverFromError rp s).status a =
        some { r with state := .pending, output := none, error := none }) := by
  constructor
  · intro s s' a r hre hstep h hr
    exact terminal_absorbing cfg s s' (inv_reachable cfg cm s hwf hre) hstep a r h hr
  · intro rp s a r h
    show (match s.status a with
      | some st => some { st with state := AState.pending, output := none, error := none }
      | none => none) = _
    rw [h]

/-- Witness for C8: on the concrete run, `A`'s `completed` record
survives the step that starts `B`, and recovery resets it. -/
theorem claim_C8_terminal_absorbing_witness :
    sFF3.status "A" = some (completeStatus initialAgentStatus (Value.vstr "out")) ∧
    (recoverFromError (createRecoveryPoint initCM) sFF3).status "A" =
      some initialAgentStatus := by
  obtain ⟨habs, hrec⟩ := claim_C8_terminal_absorbing cfgFF initCM wfFF
  refine ⟨?_, ?_⟩
  · exact habs sFF2 sFF3 "A" (completeStatus initialAgentStatus (Value.vstr "out"))
      reach_sFF2 step_sFF23 rfl (by decide)
  · exact hrec (createRecoveryPoint initCM) sFF3 "A"
      (completeStatus initialAgentStatus (Value.vstr "out")) rfl

/-! ## Claim C6: callback failure is local and silent -/

/-- C6: when a running agent's callback raises, the `except` branch of
`execute_agent` records `failed` with the error message on that agent
only: no dependent task is created, the context store is untouched, no
callback is invoked (the exception never escapes — the step is a total
transition, not an error), and every dependent of the failed agent is
never launched and stays `pending` in every later state of the run. -/
theorem claim_C6_failure_is_local (cfg : SchedConfig) (cm : CMState) (s : SState)
    (l₁ l₂ : List ATask) (a : String) (ini : Bool) (e : String)
    (hwf : WFConfig cfg) (hre : Reachable cfg cm s)
    (htasks : s.tasks = l₁ ++ ATask.running a ini :: l₂) :
    (applyFinishFail s l₁ l₂ a e).status a =
      some { state := .failed, version := 1, output := none, error := some e } ∧
    (applyFinishFail s l₁ l₂ a e).tasks = l₁ ++ l₂ ∧
    (applyFinishFail s l₁ l₂ a e).cm = s.cm ∧
    (applyFinishFail s l₁ l₂ a e).launched = s.launched ∧
    (∀ b, b ≠ a → (applyFinishFail s l₁ l₂ a e).status b = s.status b) ∧
    (∀ d, a ∈ depsOf cfg.graph d →
      ∀ s', Relation.ReflTransGen (Step cfg) (applyFinishFail s l₁ l₂ a e) s' →
        s'.launched d = 0 ∧ s'.status d = some initialAgentStatus) := by
  have hinv := inv_reachable cfg cm s hwf hre
  have hrun : 1 ≤ cntR s.tasks a := by
    rw [htasks, cntR_mid_running, if_pos rfl]
    omega
  obtain ⟨hst, _, _, _, _, _⟩ := running_pending cfg s hinv a hrun
  have hred : applyFinishFail s l₁ l₂ a e =
      { s with status := statusSet s.status a (failStatus initialAgentStatus e),
               tasks := l₁ ++ l₂ } := by
    simp [applyFinishFail, hst]
  have hre' : Reachable cfg cm (applyFinishFail s l₁ l₂ a e) :=
    hre.tail (Step.finishFail s l₁ l₂ a ini e htasks)
  refine ⟨?_, ?_, ?_, ?_, ?_, ?_⟩
  · rw [hred]
    show statusSet s.status a (failStatus initialAgentStatus e) a = _
    rw [statusSet_self]
    rfl
  · rw [hred]
  · rw [hred]
  · rw [hred]
  · intro b hb
    rw [hred]
    show statusSet s.status a (failStatus initialAgentStatus e) b = s.status b
    rw [statusSet_other s.status a b _ hb]
  · intro d hdep s' hs'
    have hres' : Reachable cfg cm s' := Relation.ReflTransGen.trans hre' hs'
    have hfail : s'.status a = some (failStatus initialAgentStatus e) := by
      clear hres'
      induction hs' with
      | refl =>
        rw [hred]
        exact statusSet_self s.status a (failStatus initialAgentStatus e)
      | tail hsteps hstep ih =>
        refine terminal_absorbing cfg _ _
          (inv_reachable cfg cm _ hwf (Relation.ReflTransGen.trans hre' hsteps))
          hstep a (failStatus initialAgentStatus e) ih ?_
        simp [failStatus, initialAgentStatus]
    exact failed_dep_frozen cfg s' hwf (inv_reachable cfg cm s' hwf hres')
      a d (failStatus initialAgentStatus e) hfail rfl hdep

/-- Witness for C6: `A`'s callback raises `"boom"` while it runs in
the concrete two-agent run; its dependent `B` is frozen. -/
theorem claim_C6_failure_is_local_witness :
    (applyFinishFail sFF1 [] [] "A" "boom").status "A" =
      some { state := .failed, version := 1, output := none, error := some "boom" } ∧
    (applyFinishFail sFF1 [] [] "A" "boom").tasks = [] ∧
    (applyFinishFail sFF1 [] [] "A" "boom").launched "B" = 0 ∧
    (applyFinishFail sFF1 [] [] "A" "boom").status "B" = some initialAgentStatus := by
  obtain ⟨h1, h2, _, _, _, h6⟩ := claim_C6_failure_is_local cfgFF initCM sFF1
    [] [] "A" true "boom" wfFF reach_sFF1 rfl
  have h7 := h6 "B" (by decide) _ Relation.ReflTransGen.refl
  exact ⟨h1, h2, h7.1, h7.2⟩

/-! ## DFS structural lemmas (towards claim C7)

`visitF`/`goDeps` thread the `visited` dict.  Three structural facts
drive both the termination and the correctness proofs: colors are
never erased (and `black` is never overwritten), a `false` return
leaves the set of `grey` nodes exactly as it was, and a `false` return
leaves its argument node `black`. -/

theorem goDeps_mono (visit1 : Vis → String → Option (Bool × Vis))
    (h1 : ∀ vis d b vis', visit1 vis d = some (b, vis') →
      (∀ x, vis x = some .black → vis' x = some .black) ∧
      (∀ x, vis' x = none → vis x = none)) :
    ∀ (ds : List String) (vis : Vis) (b : Bool) (vis' : Vis),
      goDeps visit1 vis ds = some (b, vis') →
      (∀ x, vis x = some .black → vis' x = some .black) ∧
      (∀ x, vis' x = none → vis x = none) := by
  intro ds
  induction ds with
  | nil =>
    intro vis b vis' h
    rw [goDeps] at h
    cases h
    exact ⟨fun x hx => hx, fun x hx => hx⟩
  | cons d ds ih =>
    intro vis b vis' h
    rw [goDeps] at h
    cases hv : visit1 vis d with
    | none => rw [hv] at h; exact absurd h (by simp)
    | some r =>
      rcases r with ⟨bb, v₂⟩
      rw [hv] at h
      cases bb
      · have h' : goDeps visit1 v₂ ds = some (b, vis') := h
        have m1 := h1 vis d false v₂ hv
        have m2 := ih v₂ b vis' h'
        exact ⟨fun x hx => m2.1 x (m1.1 x hx), fun x hx => m1.2 x (m2.2 x hx)⟩
      · have h' : some (true, v₂) = some (b, vis') := h
        cases h'
        exact h1 vis d true vis' hv

theorem visitF_mono (g : DependencyGraph) :
    ∀ (n : Nat) (vis : Vis) (a : String) (b : Bool) (vis' : Vis),
      visitF g n vis a = some (b, vis') →
      (∀ x, vis x = some .black → vis' x = some .black) ∧
      (∀ x, vis' x = none → vis x = none) := by
  intro n
  induction n with
  | zero =>
    intro vis a b vis' h
    exact absurd h (by rw [visitF]; simp)
  | succ n ih =>
    intro vis a b vis' h
    rw [visitF] at h
    cases hva : vis a with
    | some c =>
      rw [hva] at h
      cases c
      · have h' : some (true, vis) = some (b, vis') := h
        cases h'
        exact ⟨fun x hx => hx, fun x hx => hx⟩
      · have h' : some (false, vis) = some (b, vis') := h
        cases h'
        exact ⟨fun x hx => hx, fun x hx => hx⟩
    | none =>
      rw [hva] at h
      cases hg : goDeps (fun v d => visitF g n v d) (setColor vis a .grey) (depsOf g a) with
      | none => rw [hg] at h; exact absurd h (by simp)
      | some r =>
        rcases r with ⟨bb, v₂⟩
        rw [hg] at h
        have mg := goDeps_mono (fun v d => visitF g n v d)
          (fun vis d b vis' hv => ih vis d b vis' hv) (depsOf g a)
          (setColor vis a .grey) bb v₂ hg
        have hblack : ∀ x, vis x = some .black → v₂ x = some .black := by
          intro x hx
          refine mg.1 x ?_
          rw [setColor]
          by_cases hxa : x = a
          · rw [hxa, hva] at hx; exact absurd hx (by simp)
          · rw [if_neg hxa]; exact hx
        have hnone : ∀ x, v₂ x = none → vis x = none := by
          intro x hx
          have := mg.2 x hx
          rw [setColor] at this
          by_cases hxa : x = a
          · rw [if_pos hxa] at this; exact absurd this (by simp)
          · rw [if_neg hxa] at this; exact this
        cases bb
        · have h' : some (false, setColor v₂ a .black) = some (b, vis') := h
          cases h'
          constructor
          · intro x hx
            rw [setColor]
            by_cases hxa : x = a
            · rw [if_pos hxa]
            · rw [if_neg hxa]; exact hblack x hx
          · intro x hx
            rw [setColor] at hx
            by_cases hxa : x = a
            · rw [if_pos hxa] at hx; exact absurd hx (by simp)
            · rw [if_neg hxa] at hx; exact hnone x hx
        · have h' : some (true, v₂) = some (b, vis') := h
          cases h'
          exact ⟨hblack, hnone⟩

theorem goDeps_grey (visit1 : Vis → String → Option (Bool × Vis))
    (h1 : ∀ vis d vis', visit1 vis d = some (false, vis') →
      ∀ x, vis' x = some .grey ↔ vis x = some .grey) :
    ∀ (ds : List String) (vis vis' : Vis),
      goDeps visit1 vis ds = some (false, vis') →
      ∀ x, vis' x = some .grey ↔ vis x = some .grey := by
  intro ds
  induction ds with
  | nil =>
    intro vis vis' h x
    rw [goDeps] at h
    cases h
    exact Iff.rfl
  | cons d ds ih =>
    intro vis vis' h x
    rw [goDeps] at h
    cases hv : visit1 vis d with
    | none => rw [hv] at h; exact absurd h (by simp)
    | some r =>
      rcases r with ⟨bb, v₂⟩
      rw [hv] at h
      cases bb
      · have h' : goDeps visit1 v₂ ds = some (false, vis') := h
        exact Iff.trans (ih v₂ vis' h' x) (h1 vis d v₂ hv x)
      · have h' : some (true, v₂) = some (false, vis') := h
        cases h'

theorem visitF_grey (g : DependencyGraph) :
    ∀ (n : Nat) (vis : Vis) (a : String) (vis' : Vis),
      visitF g n vis a = some (false, vis') →
      ∀ x, vis' x = some .grey ↔ vis x = some .grey := by
  intro n
  induction n with
  | zero =>
    intro vis a vis' h
    exact absurd h (by rw [visitF]; simp)
  | succ n ih =>
    intro vis a vis' h x
    rw [visitF] at h
    cases hva : vis a with
    | some c =>
      rw [hva] at h
      cases c
      · cases h
      · have h' : some (false, vis) = some (false, vis') := h
        cases h'
        exact Iff.rfl
    | none =>
      rw [hva] at h
      cases hg : goDeps (fun v d => visitF g n v d) (setColor vis a .grey) (depsOf g a) with
      | none => rw [hg] at h; exact absurd h (by simp)
      | some r =>
        rcases r with ⟨bb, v₂⟩
        rw [hg] at h
        cases bb
        · have h' : some (false, setColor v₂ a .black) = some (false, vis') := h
          cases h'
          have hgg := goDeps_grey (fun v d => visitF g n v d)
            (fun vis d vis' hv => ih vis d vis' hv) (depsOf g a)
            (setColor vis a .grey) v₂ hg
          rw [setColor]
          by_cases hxa : x = a
          · subst hxa
            rw [if_pos rfl]
            constructor
            · intro hx; exact absurd hx (by simp)
            · intro hx; rw [hva] at hx; exact absurd hx (by simp)
          · rw [if_neg hxa]
            refine Iff.trans (hgg x) ?_
            rw [setColor, if_neg hxa]
        · cases h

theorem goDeps_blackens (visit1 : Vis → String → Option (Bool × Vis))
    (h1 : ∀ vis d vis', visit1 vis d = some (false, vis') → vis' d = some .black)
    (h2 : ∀ vis d b vis', visit1 vis d = some (b, vis') →
      (∀ x, vis x = some .black → vis' x = some .black) ∧
      (∀ x, vis' x = none → vis x = none)) :
    ∀ (ds : List String) (vis vis' : Vis),
      goDeps visit1 vis ds = some (false, vis') →
      ∀ d ∈ ds, vis' d = some .black := by
  intro ds
  induction ds with
  | nil =>
    intro vis vis' h d hd
    exact absurd hd (List.not_mem_nil d)
  | cons d ds ih =>
    intro vis vis' h e he
    rw [goDeps] at h
    cases hv : visit1 vis d with
    | none => rw [hv] at h; exact absurd h (by simp)
    | some r =>
      rcases r with ⟨bb, v₂⟩
      rw [hv] at h
      cases bb
      · have h' : goDeps visit1 v₂ ds = some (false, vis') := h
        rcases List.mem_cons.mp he with he' | he'
        · subst he'
          have hb : v₂ e = some .black := h1 vis e v₂ hv
          have mg := goDeps_mono visit1 h2 ds v₂ false vis' h'
          exact mg.1 e hb
        · exact ih v₂ vis' h' e he'
      · have h' : some (true, v₂) = some (false, vis') := h
        cases h'

theorem visitF_blackens (g : DependencyGraph) :
    ∀ (n : Nat) (vis : Vis) (a : String) (vis' : Vis),
      visitF g n vis a = some (false, vis') → vis' a = some .black := by
  intro n vis a vis' h
  cases n with
  | zero => exact absurd h (by rw [visitF]; simp)
  | succ n =>
    rw [visitF] at h
    cases hva : vis a with
    | some c =>
      rw [hva] at h
      cases c
      · cases h
      · have h' : some (false, vis) = some (false, vis') := h
        cases h'
        exact hva
    | none =>
      rw [hva] at h
      cases hg : goDeps (fun v d => visitF g n v d) (setColor vis a .grey) (depsOf g a) with
      | none => rw [hg] at h; exact absurd h (by simp)
      | some r =>
        rcases r with ⟨bb, v₂⟩
        rw [hg] at h
        cases bb
        · have h' : some (false, setColor v₂ a .black) = some (false, vis') := h
          cases h'
          rw [setColor, if_pos rfl]
        · cases h

/-! ## DFS termination (fuel sufficiency) -/

theorem lookup_mem {α : Type} (l : List (String × α)) (k : String) (v : α)
    (h : l.lookup k = some v) : (k, v) ∈ l := by
  induction l with
  | nil => simp at h
  | cons p l ih =>
    rw [lookup_cons_ite] at h
    by_cases hk : k = p.1
    · rw [if_pos hk] at h
      cases h
      subst hk
      exact List.mem_cons_self _ _
    · rw [if_neg hk] at h
      exact List.mem_cons_of_mem p (ih h)

theorem mem_foldr_deps (l : List (String × List String)) (p : String × List String)
    (hp : p ∈ l) (x : String) (hx : x ∈ p.2) :
    x ∈ l.foldr (fun p acc => p.2 ++ acc) [] := by
  induction l with
  | nil => exact absurd hp (List.not_mem_nil p)
  | cons q l ih =>
    rw [List.foldr_cons]
    rcases List.mem_cons.mp hp with he | hm
    · subst he
      exact List.mem_append_left _ hx
    · exact List.mem_append_right _ (ih hm)

theorem mem_allNodes_of_entry (g : DependencyGraph) (p : String × List String)
    (hp : p ∈ g.dependencies) (x : String) (hx : x ∈ p.2) : x ∈ allNodes g := by
  rw [allNodes]
  exact List.mem_append_right _ (mem_foldr_deps g.dependencies p hp x hx)

theorem deps_subset_allNodes (g : DependencyGraph) (a d : String)
    (h : d ∈ depsOf g a) : d ∈ allNodes g := by
  rw [depsOf] at h
  cases hl : g.dependencies.lookup a with
  | none => rw [hl] at h; exact absurd h (List.not_mem_nil d)
  | some l =>
    rw [hl] at h
    exact mem_allNodes_of_entry g (a, l) (lookup_mem g.dependencies a l hl) d h

theorem keys_subset_allNodes (g : DependencyGraph) (k : String)
    (h : k ∈ graphKeys g) : k ∈ allNodes g := by
  rw [allNodes]
  exact List.mem_append_left _ h

theorem filter_length_mono {α : Type} (l : List α) (p q : α → Bool)
    (h : ∀ x, p x = true → q x = true) :
    (l.filter p).length ≤ (l.filter q).length := by
  induction l with
  | nil => exact Nat.le_refl 0
  | cons y l ih =>
    rw [List.filter_cons, List.filter_cons]
    cases hp : p y with
    | true =>
      rw [h y hp]
      simpa using ih
    | false =>
      cases hq : q y with
      | true => simp only [if_pos rfl]; simp; omega
      | false => simpa using ih

theorem filter_length_strict {α : Type} (l : List α) (p q : α → Bool) (a : α)
    (ha : a ∈ l) (hqa : q a = true) (hpa : p a = false)
    (h : ∀ x, p x = true → q x = true) :
    (l.filter p).length < (l.filter q).length := by
  induction l with
  | nil => exact absurd ha (List.not_mem_nil a)
  | cons y l ih =>
    rw [List.filter_cons, List.filter_cons]
    by_cases hya : y = a
    · subst hya
      rw [hpa, hqa]
      simp only [if_pos rfl]
      have := filter_length_mono l p q h
      simp
      omega
    · have ha' : a ∈ l := by
        rcases List.mem_cons.mp ha with he | hm
        · exact absurd he.symm hya
        · exact hm
      cases hp : p y with
      | true =>
        rw [h y hp]
        simpa using ih ha'
      | false =>
        cases hq : q y with
        | true =>
          simp only [if_pos rfl]
          have := ih ha'
          simp
          omega
        | false => simpa using ih ha'

/-- Number of graph nodes not yet colored. -/
def uncov (g : DependencyGraph) (vis : Vis) : Nat :=
  ((allNodes g).filter (fun x => (vis x).isNone)).length

theorem uncov_mono (g : DependencyGraph) (vis₁ vis₂ : Vis)
    (h : ∀ x, vis₂ x = none → vis₁ x = none) :
    uncov g vis₂ ≤ uncov g vis₁ := by
  refine filter_length_mono (allNodes g) _ _ ?_
  intro x hx
  rw [Option.isNone_iff_eq_none] at hx ⊢
  exact h x hx

theorem uncov_setColor_lt (g : DependencyGraph) (vis : Vis) (a : String) (c : Color)
    (ha : a ∈ allNodes g) (hva : vis a = none) :
    uncov g (setColor vis a c) < uncov g vis := by
  refine filter_length_strict (allNodes g) _ _ a ha ?_ ?_ ?_
  · rw [Option.isNone_iff_eq_none]
    exact hva
  · rw [Bool.eq_false_iff]
    intro hcon
    rw [Option.isNone_iff_eq_none, setColor, if_pos rfl] at hcon
    cases hcon
  · intro x hx
    rw [Option.isNone_iff_eq_none] at hx ⊢
    rw [setColor] at hx
    by_cases hxa : x = a
    · rw [if_pos hxa] at hx; cases hx
    · rw [if_neg hxa] at hx; exact hx

theorem goDeps_total (g : DependencyGraph) (visit1 : Vis → String → Option (Bool × Vis))
    (n : Nat)
    (hm : ∀ vis d b vis', visit1 vis d = some (b, vis') →
      ∀ x, vis' x = none → vis x = none)
    (ht : ∀ vis d, d ∈ allNodes g → uncov g vis < n → visit1 vis d ≠ none) :
    ∀ (ds : List String) (vis : Vis), (∀ d ∈ ds, d ∈ allNodes g) →
      uncov g vis < n → goDeps visit1 vis ds ≠ none := by
  intro ds
  induction ds with
  | nil =>
    intro vis _ _ h
    rw [goDeps] at h
    cases h
  | cons d ds ih =>
    intro vis hds hu h
    rw [goDeps] at h
    cases hv : visit1 vis d with
    | none => exact ht vis d (hds d (List.mem_cons_self d ds)) hu hv
    | some r =>
      rcases r with ⟨bb, v₂⟩
      rw [hv] at h
      cases bb
      · have h' : goDeps visit1 v₂ ds = none := h
        have hu₂ : uncov g v₂ ≤ uncov g vis :=
          uncov_mono g vis v₂ (hm vis d false v₂ hv)
        exact ih v₂ (fun e he => hds e (List.mem_cons_of_mem d he)) (by omega) h'
      · cases h

theorem visitF_total (g : DependencyGraph) :
    ∀ (n : Nat) (vis : Vis) (a : String), a ∈ allNodes g →
      uncov g vis < n → visitF g n vis a ≠ none := by
  intro n
  induction n with
  | zero =>
    intro vis a _ hu
    exact absurd hu (by omega)
  | succ n ih =>
    intro vis a ha hu h
    rw [visitF] at h
    cases hva : vis a with
    | some c =>
      rw [hva] at h
      cases c
      · cases h
      · cases h
    | none =>
      rw [hva] at h
      have hlt : uncov g (setColor vis a .grey) < n := by
        have := uncov_setColor_lt g vis a .grey ha hva
        omega
      cases hg : goDeps (fun v d => visitF g n v d) (setColor vis a .grey) (depsOf g a) with
      | none =>
        refine goDeps_total g (fun v d => visitF g n v d) n
          (fun vis d b vis' hv => (visitF_mono g n vis d b vis' hv).2)
          (fun vis d hd hu' => ih vis d hd hu')
          (depsOf g a) (setColor vis a .grey)
          (fun d hd => deps_subset_allNodes g a d hd) hlt hg
      | some r =>
        rcases r with ⟨bb, v₂⟩
        rw [hg] at h
        cases bb
        · cases h
        · cases h

theorem anyKeys_total (g : DependencyGraph) (visit1 : Vis → String → Option (Bool × Vis))
    (hm : ∀ vis d b vis', visit1 vis d = some (b, vis') →
      ∀ x, vis' x = none → vis x = none)
    (ht : ∀ vis d, d ∈ allNodes g → uncov g vis ≤ (allNodes g).length → visit1 vis d ≠ none) :
    ∀ (ks : List String) (vis : Vis), (∀ k ∈ ks, k ∈ allNodes g) →
      uncov g vis ≤ (allNodes g).length → anyKeys visit1 vis ks ≠ none := by
  intro ks
  induction ks with
  | nil =>
    intro vis _ _ h
    rw [anyKeys] at h
    cases h
  | cons k ks ih =>
    intro vis hks hu h
    rw [anyKeys] at h
    cases hv : visit1 vis k with
    | none => exact ht vis k (hks k (List.mem_cons_self k ks)) hu hv
    | some r =>
      rcases r with ⟨bb, v₂⟩
      rw [hv] at h
      cases bb
      · have h' : anyKeys visit1 v₂ ks = none := h
        have hu₂ : uncov g v₂ ≤ uncov g vis :=
          uncov_mono g vis v₂ (hm vis k false v₂ hv)
        exact ih v₂ (fun e he => hks e (List.mem_cons_of_mem k he)) (by omega) h'
      · cases h

/-- C7 (termination part): `has_circular_dependency` always returns a
boolean — the recursion provably never exhausts the `nodeBound` fuel. -/
theorem hasCircularDependency_total (g : DependencyGraph) :
    ∃ b, hasCircularDependency g = some b := by
  have hne : hasCircularDependency g ≠ none := by
    rw [hasCircularDependency]
    refine anyKeys_total g (fun v a => visitF g (nodeBound g) v a)
      (fun vis d b vis' hv => (visitF_mono g (nodeBound g) vis d b vis' hv).2)
      (fun vis d hd hu => visitF_total g (nodeBound g) vis d hd (by
        rw [nodeBound]
        omega))
      (graphKeys g) (fun _ => none)
      (fun k hk => keys_subset_allNodes g k hk) ?_
    rw [uncov]
    exact List.length_filter_le _ _
  cases hb : hasCircularDependency g with
  | none => exact absurd hb hne
  | some b => exact ⟨b, rfl⟩

/-! ## DFS soundness: a `true` return exhibits a cycle

The key invariant is the grey path: whenever `visit` is entered on
node `a`, every grey node reaches `a` in the graph, so hitting a grey
node closes a genuine directed cycle. -/

theorem goDeps_sound (g : DependencyGraph) (visit1 : Vis → String → Option (Bool × Vis))
    (hsound : ∀ vis d vis', visit1 vis d = some (true, vis') →
      (∀ c, vis c = some .grey → Relation.TransGen (edgeRel g) c d) →
      ∃ z, Relation.TransGen (edgeRel g) z z)
    (hgrey : ∀ vis d vis', visit1 vis d = some (false, vis') →
      ∀ x, vis' x = some .grey ↔ vis x = some .grey) :
    ∀ (ds : List String) (vis vis' : Vis),
      goDeps visit1 vis ds = some (true, vis') →
      (∀ c, vis c = some .grey → ∀ d ∈ ds, Relation.TransGen (edgeRel g) c d) →
      ∃ z, Relation.TransGen (edgeRel g) z z := by
  intro ds
  induction ds with
  | nil =>
    intro vis vis' h _
    rw [goDeps] at h
    cases h
  | cons d ds ih =>
    intro vis vis' h hpath
    rw [goDeps] at h
    cases hv : visit1 vis d with
    | none => rw [hv] at h; exact absurd h (by simp)
    | some r =>
      rcases r with ⟨bb, v₂⟩
      rw [hv] at h
      cases bb
      · have h' : goDeps visit1 v₂ ds = some (true, vis') := h
        refine ih v₂ vis' h' ?_
        intro c hc e he
        exact hpath c ((hgrey vis d v₂ hv c).mp hc) e (List.mem_cons_of_mem d he)
      · exact hsound vis d v₂ hv
          (fun c hc => hpath c hc d (List.mem_cons_self d ds))

theorem visitF_sound (g : DependencyGraph) :
    ∀ (n : Nat) (vis : Vis) (a : String) (vis' : Vis),
      visitF g n vis a = some (true, vis') →
      (∀ c, vis c = some .grey → Relation.TransGen (edgeRel g) c a) →
      ∃ z, Relation.TransGen (edgeRel g) z z := by
  intro n
  induction n with
  | zero =>
    intro vis a vis' h _
    exact absurd h (by rw [visitF]; simp)
  | succ n ih =>
    intro vis a vis' h hpath
    rw [visitF] at h
    cases hva : vis a with
    | some c =>
      rw [hva] at h
      cases c
      · exact ⟨a, hpath a hva⟩
      · cases h
    | none =>
      rw [hva] at h
      cases hg : goDeps (fun v d => visitF g n v d) (setColor vis a .grey) (depsOf g a) with
      | none => rw [hg] at h; exact absurd h (by simp)
      | some r =>
        rcases r with ⟨bb, v₂⟩
        rw [hg] at h
        cases bb
        · cases h
        · refine goDeps_sound g (fun v d => visitF g n v d)
            (fun vis d vis' hv => ih vis d vis' hv)
            (fun vis d vis' hv => visitF_grey g n vis d vis' hv)
            (depsOf g a) (setColor vis a .grey) v₂ hg ?_
          intro c hc e he
          rw [setColor] at hc
          by_cases hca : c = a
          · exact hca ▸ Relation.TransGen.single he
          · rw [if_neg hca] at hc
            exact Relation.TransGen.tail (hpath c hc) he

theorem anyKeys_sound (g : DependencyGraph) (visit1 : Vis → String → Option (Bool × Vis))
    (hsound : ∀ vis d vis', visit1 vis d = some (true, vis') →
      (∀ c, vis c = some .grey → Relation.TransGen (edgeRel g) c d) →
      ∃ z, Relation.TransGen (edgeRel g) z z)
    (hgrey : ∀ vis d vis', visit1 vis d = some (false, vis') →
      ∀ x, vis' x = some .grey ↔ vis x = some .grey) :
    ∀ (ks : List String) (vis : Vis), anyKeys visit1 vis ks = some true →
      (∀ c, vis c ≠ some .grey) → ∃ z, Relation.TransGen (edgeRel g) z z := by
  intro ks
  induction ks with
  | nil =>
    intro vis h _
    rw [anyKeys] at h
    cases h
  | cons k ks ih =>
    intro vis h hempty
    rw [anyKeys] at h
    cases hv : visit1 vis k with
    | none => rw [hv] at h; exact absurd h (by simp)
    | some r =>
      rcases r with ⟨bb, v₂⟩
      rw [hv] at h
      cases bb
      · have h' : anyKeys visit1 v₂ ks = some true := h
        refine ih v₂ h' ?_
        intro c hc
        exact hempty c ((hgrey vis k v₂ hv c).mp hc)
      · exact hsound vis k v₂ hv (fun c hc => absurd hc (hempty c))

/-! ## DFS completeness: a `false` run proves the graph acyclic

Invariant: black nodes are closed under successors (`BlackInv`) and no
black node lies on a cycle (`NoCycB`).  A full `false` run colors
every key black, and every node with an outgoing edge is a key. -/

/-- Successors of black nodes are black. -/
def BlackInv (g : DependencyGraph) (vis : Vis) : Prop :=
  ∀ b, vis b = some .black → ∀ d ∈ depsOf g b, vis d = some .black

/-- No cycle passes through a black node. -/
def NoCycB (g : DependencyGraph) (vis : Vis) : Prop :=
  ∀ z, vis z = some .black → ¬ Relation.TransGen (edgeRel g) z z

theorem black_closure (g : DependencyGraph) (vis : Vis) (hB : BlackInv g vis)
    (b x : String) (hb : vis b = some .black)
    (h : Relation.ReflTransGen (edgeRel g) b x) : vis x = some .black := by
  induction h with
  | refl => exact hb
  | tail _ hstep ih => exact hB _ ih _ hstep

theorem transGen_first {α : Type} (r : α → α → Prop) (a c : α)
    (h : Relation.TransGen r a c) : ∃ b, r a b ∧ Relation.ReflTransGen r b c := by
  induction h with
  | single h => exact ⟨_, h, Relation.ReflTransGen.refl⟩
  | tail _ hstep ih =>
    rcases ih with ⟨b, hab, hbc⟩
    exact ⟨b, hab, hbc.tail hstep⟩

theorem good_setColor_grey (g : DependencyGraph) (vis : Vis) (a : String)
    (hva : vis a = none) (hB : BlackInv g vis) (hN : NoCycB g vis) :
    BlackInv g (setColor vis a .grey) ∧ NoCycB g (setColor vis a .grey) := by
  have hblack : ∀ x, setColor vis a .grey x = some .black ↔ vis x = some .black := by
    intro x
    rw [setColor]
    by_cases hxa : x = a
    · rw [if_pos hxa, hxa, hva]
      constructor
      · intro h; cases h
      · intro h; cases h
    · rw [if_neg hxa]
  constructor
  · intro b hb d hd
    exact (hblack d).mpr (hB b ((hblack b).mp hb) d hd)
  · intro z hz
    exact hN z ((hblack z).mp hz)

theorem goDeps_good (g : DependencyGraph) (visit1 : Vis → String → Option (Bool × Vis))
    (hgood : ∀ vis d vis', visit1 vis d = some (false, vis') →
      BlackInv g vis → NoCycB g vis →
      BlackInv g vis' ∧ NoCycB g vis' ∧ vis' d = some .black)
    (hmono : ∀ vis d b vis', visit1 vis d = some (b, vis') →
      (∀ x, vis x = some .black → vis' x = some .black) ∧
      (∀ x, vis' x = none → vis x = none)) :
    ∀ (ds : List String) (vis vis' : Vis),
      goDeps visit1 vis ds = some (false, vis') → BlackInv g vis → NoCycB g vis →
      BlackInv g vis' ∧ NoCycB g vis' ∧ ∀ d ∈ ds, vis' d = some .black := by
  intro ds
  induction ds with
  | nil =>
    intro vis vis' h hB hN
    rw [goDeps] at h
    cases h
    exact ⟨hB, hN, fun d hd => absurd hd (List.not_mem_nil d)⟩
  | cons d ds ih =>
    intro vis vis' h hB hN
    rw [goDeps] at h
    cases hv : visit1 vis d with
    | none => rw [hv] at h; exact absurd h (by simp)
    | some r =>
      rcases r with ⟨bb, v₂⟩
      rw [hv] at h
      cases bb
      · have h' : goDeps visit1 v₂ ds = some (false, vis') := h
        obtain ⟨hB₂, hN₂, hdb⟩ := hgood vis d v₂ hv hB hN
        obtain ⟨hB', hN', hds⟩ := ih v₂ vis' h' hB₂ hN₂
        refine ⟨hB', hN', fun e he => ?_⟩
        rcases List.mem_cons.mp he with he' | he'
        · subst he'
          exact (goDeps_mono visit1 hmono ds v₂ false vis' h').1 e hdb
        · exact hds e he'
      · have h' : some (true, v₂) = some (false, vis') := h
        cases h'

theorem visitF_good (g : DependencyGraph) :
    ∀ (n : Nat) (vis : Vis) (a : String) (vis' : Vis),
      visitF g n vis a = some (false, vis') → BlackInv g vis → NoCycB g vis →
      BlackInv g vis' ∧ NoCycB g vis' ∧ vis' a = some .black := by
  intro n
  induction n with
  | zero =>
    intro vis a vis' h _ _
    exact absurd h (by rw [visitF]; simp)
  | succ n ih =>
    intro vis a vis' h hB hN
    rw [visitF] at h
    cases hva : vis a with
    | some c =>
      rw [hva] at h
      cases c
      · cases h
      · have h' : some (false, vis) = some (false, vis') := h
        cases h'
        exact ⟨hB, hN, hva⟩
    | none =>
      rw [hva] at h
      cases hg : goDeps (fun v d => visitF g n v d) (setColor vis a .grey) (depsOf g a) with
      | none => rw [hg] at h; exact absurd h (by simp)
      | some r =>
        rcases r with ⟨bb, v₂⟩
        rw [hg] at h
        cases bb
        · have h' : some (false, setColor v₂ a .black) = some (false, vis') := h
          cases h'
          obtain ⟨hB₁, hN₁⟩ := good_setColor_grey g vis a hva hB hN
          obtain ⟨hB₂, hN₂, hdeps⟩ := goDeps_good g (fun v d => visitF g n v d)
            (fun vis d vis' hv hB hN => ih vis d vis' hv hB hN)
            (fun vis d b vis' hv => visitF_mono g n vis d b vis' hv)
            (depsOf g a) (setColor vis a .grey) v₂ hg hB₁ hN₁
          have hagrey : v₂ a = some .grey := by
            have := goDeps_grey (fun v d => visitF g n v d)
              (fun vis d vis' hv => visitF_grey g n vis d vis' hv)
              (depsOf g a) (setColor vis a .grey) v₂ hg a
            rw [this, setColor, if_pos rfl]
          refine ⟨?_, ?_, by rw [setColor, if_pos rfl]⟩
          · intro b hb d hd
            rw [setColor]
            by_cases hda : d = a
            · rw [if_pos hda]
            · rw [if_neg hda]
              rw [setColor] at hb
              by_cases hba : b = a
              · rw [if_pos hba] at hb
                subst hba
                exact hdeps d hd
              · rw [if_neg hba] at hb
                exact hB₂ b hb d hd
          · intro z hz hcyc
            rw [setColor] at hz
            by_cases hza : z = a
            · subst hza
              obtain ⟨w, hzw, hwz⟩ := transGen_first (edgeRel g) z z hcyc
              have hwb : v₂ w = some .black := hdeps w hzw
              have : v₂ z = some .black := black_closure g v₂ hB₂ w z hwb hwz
              rw [hagrey] at this
              cases this
            · rw [if_neg hza] at hz
              exact hN₂ z hz hcyc
        · cases h

theorem anyKeys_good (g : DependencyGraph) (visit1 : Vis → String → Option (Bool × Vis))
    (hgood : ∀ vis d vis', visit1 vis d = some (false, vis') →
      BlackInv g vis → NoCycB g vis →
      BlackInv g vis' ∧ NoCycB g vis' ∧ vis' d = some .black)
    (hmono : ∀ vis d b vis', visit1 vis d = some (b, vis') →
      (∀ x, vis x = some .black → vis' x = some .black) ∧
      (∀ x, vis' x = none → vis x = none)) :
    ∀ (ks : List String) (vis : Vis),
      anyKeys visit1 vis ks = some false → BlackInv g vis → NoCycB g vis →
      ∃ visf, BlackInv g visf ∧ NoCycB g visf ∧
        (∀ k ∈ ks, visf k = some .black) ∧
        (∀ x, vis x = some .black → visf x = some .black) := by
  intro ks
  induction ks with
  | nil =>
    intro vis _ hB hN
    exact ⟨vis, hB, hN, fun k hk => absurd hk (List.not_mem_nil k), fun x hx => hx⟩
  | cons k ks ih =>
    intro vis h hB hN
    rw [anyKeys] at h
    cases hv : visit1 vis k with
    | none => rw [hv] at h; exact absurd h (by simp)
    | some r =>
      rcases r with ⟨bb, v₂⟩
      rw [hv] at h
      cases bb
      · have h' : anyKeys visit1 v₂ ks = some false := h
        obtain ⟨hB₂, hN₂, hkb⟩ := hgood vis k v₂ hv hB hN
        obtain ⟨visf, hBf, hNf, hksf, hmf⟩ := ih v₂ h' hB₂ hN₂
        refine ⟨visf, hBf, hNf, fun e he => ?_, fun x hx => ?_⟩
        · rcases List.mem_cons.mp he with he' | he'
          · subst he'
            exact hmf e hkb
          · exact hksf e he'
        · exact hmf x ((hmono vis k false v₂ hv).1 x hx)
      · have h' : some true = some false := h
        cases h'

/-- C7 (completeness part): a `false` answer proves the graph acyclic. -/
theorem hasCircularDependency_complete (g : DependencyGraph)
    (h : hasCircularDependency g = some false) : ¬ HasCycle g := by
  rw [hasCircularDependency] at h
  obtain ⟨visf, _, hNf, hksf, _⟩ := anyKeys_good g
    (fun v a => visitF g (nodeBound g) v a)
    (fun vis d vis' hv hB hN => visitF_good g (nodeBound g) vis d vis' hv hB hN)
    (fun vis d b vis' hv => visitF_mono g (nodeBound g) vis d b vis' hv)
    (graphKeys g) (fun _ => none) h
    (fun b hb => by cases hb) (fun z hz => by cases hz)
  rintro ⟨z, hcyc⟩
  obtain ⟨w, hzw, _⟩ := transGen_first (edgeRel g) z z hcyc
  have hzkeys : z ∈ graphKeys g := by
    refine mem_keys_of_deps_ne g z ?_
    intro hnil
    rw [edgeRel, hnil] at hzw
    exact absurd hzw (List.not_mem_nil w)
  exact hNf z (hksf z hzkeys) hcyc

/-! ## Claim C7: cycle detection is total and correct -/

/-- C7: `has_circular_dependency` terminates on every finite graph
(the fuel `nodeBound g` provably suffices, so a boolean is always
returned) and the boolean is `true` exactly when the dependency graph
has a directed cycle.  In particular it answers `true` on
`A → B → C → A` and `false` on any acyclic graph, diamonds included
(see the concrete corollaries below). -/
theorem claim_C7_cycle_detection_correct (g : DependencyGraph) :
    ∃ b, hasCircularDependency g = some b ∧ (b = true ↔ HasCycle g) := by
  obtain ⟨b, hb⟩ := hasCircularDependency_total g
  refine ⟨b, hb, ?_, ?_⟩
  · intro hbt
    subst hbt
    rw [hasCircularDependency] at hb
    obtain ⟨z, hz⟩ := anyKeys_sound g (fun v a => visitF g (nodeBound g) v a)
      (fun vis d vis' hv hp => visitF_sound g (nodeBound g) vis d vis' hv hp)
      (fun vis d vis' hv => visitF_grey g (nodeBound g) vis d vis' hv)
      (graphKeys g) (fun _ => none) hb (fun c hc => by cases hc)
    exact ⟨z, hz⟩
  · intro hcyc
    cases b with
    | true => rfl
    | false => exact absurd hcyc (hasCircularDependency_complete g hb)

/-- The three-node cycle `A → B → C → A` from the spec is detected. -/
theorem hasCircularDependency_three_cycle :
    hasCircularDependency ⟨[("A", ["B"]), ("B", ["C"]), ("C", ["A"])]⟩ = some true := by
  decide

/-- The diamond `D → {B, C} → A` (shared prerequisite, no cycle) is
not reported as a cycle. -/
theorem hasCircularDependency_diamond :
    hasCircularDependency ⟨[("D", ["B", "C"]), ("B", ["A"]), ("C", ["A"])]⟩ = some false := by
  decide
